import Mathlib

set_option maxHeartbeats 1000000
set_option maxRecDepth 100000

/-!
Verification of `.github/scripts/generate_readme.py`.

The script is a linear pipeline: list repositories, enrich each one through an
LLM chat endpoint (with an on-disk JSON cache keyed by repository name), and
render a categorized Markdown document.  This file embeds the script's data
model and operations shallowly: Python dictionaries coming from JSON are an
inductive `Json` value, `json.load` / `json.dump(indent=2, ensure_ascii=False)`
are an executable parser and pretty-printer over that type, network calls are
oracles passed in as functions, and every raised Python exception is an
`Except.error`.  Numeric JSON literals never occur in the script's own data, so
the embedded grammar covers null, booleans, strings, arrays and objects.
-/

/-! ### Characters and Python string helpers -/

def isWsC (c : Char) : Bool := c = ' ' || c = '\t' || c = '\n' || c = '\r'

/-- Leading-whitespace removal, the `lstrip` half of Python `str.strip`. -/
def dropWs (l : List Char) : List Char := l.dropWhile isWsC

/-- Trailing-whitespace removal, the `rstrip` half of Python `str.strip`. -/
def rstripWs (l : List Char) : List Char := (dropWs l.reverse).reverse

/-- Python `str.strip()` on a list of characters. -/
def pyStrip (l : List Char) : List Char := dropWs (rstripWs l)

/-- Python slicing `s[:n]` (code points). -/
def pyTake (n : Nat) (s : String) : String := String.mk (s.data.take n)

/-- Boolean prefix test on character lists. -/
def pfxB : List Char → List Char → Bool
  | [], _ => true
  | _ :: _, [] => false
  | a :: as, b :: bs => a = b && pfxB as bs

/-- Python `sub in s`: substring occurrence test. -/
def occursB (sep : List Char) : List Char → Bool
  | [] => pfxB sep []
  | c :: cs => pfxB sep (c :: cs) || occursB sep cs

/-- One step list of `str.split(sep)`: fuel-driven scan that cuts at each
leftmost non-overlapping occurrence of `sep`. -/
def splitAux (sep : List Char) : Nat → List Char → List Char → List (List Char)
  | 0, acc, l => [acc.reverse ++ l]
  | _ + 1, acc, [] => [acc.reverse]
  | f + 1, acc, c :: cs =>
    if pfxB sep (c :: cs) && !sep.isEmpty then
      acc.reverse :: splitAux sep f [] (List.drop sep.length (c :: cs))
    else
      splitAux sep f (c :: acc) cs

/-- Python `s.split(sep)` for a non-empty separator. -/
def splitOnSub (sep l : List Char) : List (List Char) := splitAux sep (l.length + 1) [] l

/-! ### The JSON value model -/

mutual
inductive Json where
  | null : Json
  | bool (b : Bool) : Json
  | str (s : String) : Json
  | arr (es : JArr) : Json
  | obj (ms : JObj) : Json

inductive JArr where
  | nil : JArr
  | cons (hd : Json) (tl : JArr) : JArr

inductive JObj where
  | nil : JObj
  | cons (key : String) (val : Json) (tl : JObj) : JObj
end

deriving instance DecidableEq for Json
deriving instance DecidableEq for JArr
deriving instance DecidableEq for JObj

/-- Python `d.get(key)` on a JSON object (`None` when absent). -/
def jlookup : JObj → String → Option Json
  | .nil, _ => none
  | .cons k v t, key => if k = key then some v else jlookup t key

/-- Python `d[key] = value`: overwrite in place, else append (insertion order). -/
def jset : JObj → String → Json → JObj
  | .nil, key, value => .cons key value .nil
  | .cons k v t, key, value =>
    if k = key then .cons k value t else .cons k v (jset t key value)

/-- Python `d.get(key, default)`. -/
def jGetD (ms : JObj) (key : String) (d : Json) : Json := (jlookup ms key).getD d

/-! ### `json.dump(..., indent=2, ensure_ascii=False)` -/

def hexDig (n : Nat) : Char :=
  if n < 10 then Char.ofNat (48 + n) else Char.ofNat (87 + n)

/-- The escaping `json.dump` applies to one character of a string
(`ensure_ascii=False`: non-ASCII passes through unescaped). -/
def escChar (c : Char) : List Char :=
  if c = '"' then ['\\', '"']
  else if c = '\\' then ['\\', '\\']
  else if c = '\n' then ['\\', 'n']
  else if c = '\t' then ['\\', 't']
  else if c = '\r' then ['\\', 'r']
  else if c = Char.ofNat 8 then ['\\', 'b']
  else if c = Char.ofNat 12 then ['\\', 'f']
  else if c.toNat < 32 then ['\\', 'u', '0', '0', hexDig (c.toNat / 16), hexDig (c.toNat % 16)]
  else [c]

def escList : List Char → List Char
  | [] => []
  | c :: cs => escChar c ++ escList cs

/-- A JSON string literal, quotes included. -/
def renderStrLit (s : String) : List Char := '"' :: (escList s.data ++ ['"'])

/-- Indentation at nesting level `n` for `indent=2`. -/
def jpad (n : Nat) : List Char := List.replicate (2 * n) ' '

mutual
def renderV (ind : Nat) : Json → List Char
  | .null => ['n', 'u', 'l', 'l']
  | .bool b => if b then ['t', 'r', 'u', 'e'] else ['f', 'a', 'l', 's', 'e']
  | .str s => renderStrLit s
  | .arr .nil => ['[', ']']
  | .arr (.cons x tl) =>
    '[' :: '\n' :: (jpad (ind + 1) ++ renderV (ind + 1) x ++ renderE (ind + 1) tl
      ++ '\n' :: (jpad ind ++ [']']))
  | .obj .nil => ['\x7b', '\x7d']
  | .obj (.cons k v tl) =>
    '\x7b' :: '\n' :: (jpad (ind + 1) ++ renderStrLit k ++ ':' :: ' ' :: renderV (ind + 1) v
      ++ renderM (ind + 1) tl ++ '\n' :: (jpad ind ++ ['\x7d']))

def renderE (ind : Nat) : JArr → List Char
  | .nil => []
  | .cons x tl => ',' :: '\n' :: (jpad ind ++ renderV ind x ++ renderE ind tl)

def renderM (ind : Nat) : JObj → List Char
  | .nil => []
  | .cons k v tl =>
    ',' :: '\n' :: (jpad ind ++ renderStrLit k ++ ':' :: ' ' :: renderV ind v ++ renderM ind tl)
end

/-! ### `json.load` / `json.loads` -/

def hexVal (c : Char) : Option Nat :=
  if 48 ≤ c.toNat ∧ c.toNat ≤ 57 then some (c.toNat - 48)
  else if 97 ≤ c.toNat ∧ c.toNat ≤ 102 then some (c.toNat - 87)
  else if 65 ≤ c.toNat ∧ c.toNat ≤ 70 then some (c.toNat - 55)
  else none

/-- Body of a JSON string literal (after the opening quote), with escapes. -/
def parseStrAux : List Char → List Char → Option (String × List Char)
  | _, [] => none
  | acc, c :: cs =>
    if c = '"' then some (String.mk acc.reverse, cs)
    else if c = '\\' then
      match cs with
      | [] => none
      | e :: cs' =>
        if e = '"' then parseStrAux ('"' :: acc) cs'
        else if e = '\\' then parseStrAux ('\\' :: acc) cs'
        else if e = '/' then parseStrAux ('/' :: acc) cs'
        else if e = 'n' then parseStrAux ('\n' :: acc) cs'
        else if e = 't' then parseStrAux ('\t' :: acc) cs'
        else if e = 'r' then parseStrAux ('\r' :: acc) cs'
        else if e = 'b' then parseStrAux (Char.ofNat 8 :: acc) cs'
        else if e = 'f' then parseStrAux (Char.ofNat 12 :: acc) cs'
        else if e = 'u' then
          match cs' with
          | h1 :: h2 :: h3 :: h4 :: cs'' =>
            match hexVal h1, hexVal h2, hexVal h3, hexVal h4 with
            | some a, some b, some c3, some d =>
              parseStrAux (Char.ofNat (4096 * a + 256 * b + 16 * c3 + d) :: acc) cs''
            | _, _, _, _ => none
          | _ => none
        else none
    else parseStrAux (c :: acc) cs

mutual
def parseVal : Nat → List Char → Option (Json × List Char)
  | 0, _ => none
  | f + 1, l =>
    match dropWs l with
    | 'n' :: 'u' :: 'l' :: 'l' :: r => some (.null, r)
    | 't' :: 'r' :: 'u' :: 'e' :: r => some (.bool true, r)
    | 'f' :: 'a' :: 'l' :: 's' :: 'e' :: r => some (.bool false, r)
    | '"' :: r =>
      (match parseStrAux [] r with
       | some (s, r') => some (.str s, r')
       | none => none)
    | '[' :: r =>
      (match dropWs r with
       | ']' :: r' => some (.arr .nil, r')
       | _ =>
         match parseElems f r with
         | some (es, r') => some (.arr es, r')
         | none => none)
    | '\x7b' :: r =>
      (match dropWs r with
       | '\x7d' :: r' => some (.obj .nil, r')
       | _ =>
         match parseMembers f r with
         | some (ms, r'') => some (.obj ms, r'')
         | none => none)
    | _ => none

def parseElems : Nat → List Char → Option (JArr × List Char)
  | 0, _ => none
  | f + 1, l =>
    match parseVal f l with
    | some (x, r) =>
      (match dropWs r with
       | ',' :: r' =>
         (match parseElems f r' with
          | some (tl, r'') => some (.cons x tl, r'')
          | none => none)
       | ']' :: r' => some (.cons x .nil, r')
       | _ => none)
    | none => none

def parseMembers : Nat → List Char → Option (JObj × List Char)
  | 0, _ => none
  | f + 1, l =>
    match dropWs l with
    | '"' :: r =>
      (match parseStrAux [] r with
       | some (k, r1) =>
         (match dropWs r1 with
          | ':' :: r2 =>
            (match parseVal f r2 with
             | some (v, r3) =>
               (match dropWs r3 with
                | ',' :: r4 =>
                  (match parseMembers f r4 with
                   | some (tl, r5) => some (.cons k v tl, r5)
                   | none => none)
                | '\x7d' :: r4 => some (.cons k v .nil, r4)
                | _ => none)
             | none => none)
          | _ => none)
       | none => none)
    | _ => none
end

/-- `json.loads`: tolerate surrounding whitespace, require the body to be a
single JSON value.  `none` models the `JSONDecodeError` exception. -/
def jparseL (l : List Char) : Option Json :=
  match parseVal ((pyStrip l).length + 1) (pyStrip l) with
  | some (j, r) => if r = [] then some j else none
  | none => none

def jparse (s : String) : Option Json := jparseL s.data

/-! ### Enrichment client (`get_llm_description`) -/

def fence : List Char := ['\x60', '\x60', '\x60']

def fenceJson : List Char := fence ++ ['j', 's', 'o', 'n']

/-- The markdown-fence cleanup applied to the chat completion's message
content before `json.loads` (lines 106-110 of the script):

    if "```json" in content: content = content.split("```json")[1].split("```")[0].strip()
    elif "```" in content:   content = content.split("```")[1].split("```")[0].strip()
-/
def cleanContent (c : List Char) : List Char :=
  if occursB fenceJson c then
    pyStrip ((splitOnSub fence ((splitOnSub fenceJson c).getD 1 [])).getD 0 [])
  else if occursB fence c then
    pyStrip ((splitOnSub fence ((splitOnSub fence c).getD 1 [])).getD 0 [])
  else c

/-- Parse of one chat response's message content (fence cleanup + `json.loads`). -/
def parseLlmContent (s : String) : Option Json := jparseL (cleanContent s.data)

/-- The fenced form of an LLM response: `"```json\n" + payload + "\n```"`. -/
def wrapJson (s : String) : String :=
  String.mk (fenceJson ++ '\n' :: (s.data ++ '\n' :: fence))

/-- Outcome of one `requests.post` to the chat-completion endpoint, as observed
by the client code: a 200 response whose message content was extracted, a
non-success HTTP status, a `requests.exceptions.Timeout`, or any other raised
exception (connection errors, malformed response body, ...). -/
inductive Attempt where
  | success (content : String) : Attempt
  | httpErr : Attempt
  | timeout : Attempt
  | raise : Attempt
deriving DecidableEq

/-- The default EnrichmentResult
`{"category": "Unclassified", "enhanced_description": current_description or ""}`. -/
def defaultLlm (desc : Option String) : Json :=
  .obj (.cons "category" (.str "Unclassified")
    (.cons "enhanced_description" (.str (desc.getD "")) .nil))

/-- The `for _ in range(3)` retry loop.  Returns the parsed JSON when an
attempt succeeds (`none` when the loop falls through or an exception escapes
to the outer handler), the number of POSTs made, and the number of
`time.sleep(2)` pauses taken. -/
def llmLoop (att : Nat → Attempt) : Nat → Nat → Option Json × Nat × Nat
  | _, 0 => (none, 0, 0)
  | i, k + 1 =>
    match att i with
    | .success c =>
      (match parseLlmContent c with
       | some j => (some j, 1, 0)
       | none => (none, 1, 0))
    | .httpErr =>
      (match llmLoop att (i + 1) k with
       | (r, n, s) => (r, n + 1, s + 1))
    | .timeout =>
      (match llmLoop att (i + 1) k with
       | (r, n, s) => (r, n + 1, s + 1))
    | .raise => (none, 1, 0)

structure LlmResult where
  result : Json
  calls : Nat
  sleeps : Nat
deriving DecidableEq

/-- `get_llm_description`: short-circuits to the default result when no API
key is configured; otherwise runs up to 3 attempts and falls back to the
default result on exhaustion or any exception (JSON parse failures included). -/
def get_llm_description (apiKey : Option String) (att : Nat → Attempt)
    (desc : Option String) : LlmResult :=
  match apiKey with
  | none => ⟨defaultLlm desc, 0, 0⟩
  | some _ =>
    match llmLoop att 0 3 with
    | (some j, n, s) => ⟨j, n, s⟩
    | (none, n, s) => ⟨defaultLlm desc, n, s⟩

/-! ### README fetcher (`get_readme_content`) -/

/-- Outcome of the README request: a 200 response with or without a
`content` field whose base64 payload decodes (`none` = `b64decode` raised),
a non-success status, or a raised exception. -/
inductive ReadmeResp where
  | ok (hasContent : Bool) (decoded : Option String) : ReadmeResp
  | errStatus : ReadmeResp
  | raise : ReadmeResp
deriving DecidableEq

/-- The body of `get_readme_content`'s `try` block; `Except.error` is a raised
exception reaching the handler, `Except.ok (some s)` a `return` from inside the
block, `Except.ok none` falling through to the final `return ""`. -/
def readmeTry : ReadmeResp → Except Unit (Option String)
  | .ok true (some s) => .ok (some (pyTake 2000 s))
  | .ok true none => .error ()
  | .ok false _ => .ok none
  | .errStatus => .ok none
  | .raise => .error ()

/-- `get_readme_content`: every exception is swallowed into `""`. -/
def get_readme_content (r : ReadmeResp) : String :=
  match readmeTry r with
  | .ok (some s) => s
  | .ok none => ""
  | .error _ => ""

/-! ### Orchestrator (`main`) -/

structure Repo where
  name : String
  description : Option String
  html_url : String
deriving DecidableEq

/-- A row of a category table: `{"name": ..., "url": ..., "description": ...}`. -/
structure Item where
  name : String
  url : String
  descr : Json
deriving DecidableEq

/-- The Python value of the repo's `description` field (`None` or a string). -/
def pyOptStr : Option String → Json
  | none => .null
  | some s => .str s

structure LoopState where
  cache : JObj
  categorized : List (Json × List Item)
  updated : Bool
  rows : List (Json × Item)
  fetches : List String
  invocations : List String
  llmCalls : Nat
deriving DecidableEq

def lkp : List (Json × List Item) → Json → Option (List Item)
  | [], _ => none
  | p :: t, c => if p.1 = c then some p.2 else lkp t c

def lkpD (m : List (Json × List Item)) (c : Json) : List Item := (lkp m c).getD []

/-- `if cat not in categorized_repos: categorized_repos[cat] = []` followed by
`categorized_repos[cat].append(item)`. -/
def insertCat (m : List (Json × List Item)) (c : Json) (it : Item) : List (Json × List Item) :=
  if (lkp m c).isSome then
    m.map (fun p => if p.1 = c then (p.1, p.2 ++ [it]) else p)
  else
    m ++ [(c, [it])]

/-- Lines 177-187: read `category` / `enhanced_description` off `llm_data`
with `.get` defaults and append the repo's table row.  `llm_data` that is not
a JSON object raises `AttributeError` on `.get`. -/
def addRow (st : LoopState) (ld : Json) (r : Repo) : Except Unit LoopState :=
  match ld with
  | .obj kv =>
    let cat := jGetD kv "category" (.str "Unclassified")
    let nd := jGetD kv "enhanced_description" (pyOptStr r.description)
    let it : Item := ⟨r.name, r.html_url, nd⟩
    .ok { st with categorized := insertCat st.categorized cat it,
                  rows := st.rows ++ [(cat, it)] }
  | _ => .error ()

/-- The miss branch (lines 165-175): fetch the README, call the enrichment
client, overwrite the cache entry, record the effects. -/
def missPath (apiKey : Option String) (att : String → Nat → Attempt) (time : String)
    (st : LoopState) (r : Repo) : Except Unit LoopState :=
  let lr := get_llm_description apiKey (att r.name) r.description
  let entry : Json := .obj (.cons "description" (pyOptStr r.description)
    (.cons "llm_data" lr.result (.cons "last_updated" (.str time) .nil)))
  addRow { st with cache := jset st.cache r.name entry,
                   updated := true,
                   fetches := st.fetches ++ [r.name],
                   invocations := st.invocations ++ [r.name],
                   llmCalls := st.llmCalls + lr.calls } lr.result r

/-- One iteration of `for repo in repos` (lines 155-187).  A cache entry is
reused only when it exists and its stored `description` equals the repo's
current description; the reuse reads `cache[name]["llm_data"]` with brackets,
so a hit entry without that key raises `KeyError` (`Except.error`). -/
def processRepo (apiKey : Option String) (att : String → Nat → Attempt) (time : String)
    (st : LoopState) (r : Repo) : Except Unit LoopState :=
  match jlookup st.cache r.name with
  | some entry =>
    match entry with
    | .obj kvs =>
      if jGetD kvs "description" .null = pyOptStr r.description then
        match jlookup kvs "llm_data" with
        | some ld => addRow st ld r
        | none => .error ()
      else
        missPath apiKey att time st r
    | _ => .error ()
  | none => missPath apiKey att time st r

/-- `json.load` on the cache file: absent or malformed file means an empty
cache.  (The program only ever writes a JSON object here, so a well-formed
file parses to an object.) -/
def loadCache : Option String → JObj
  | none => .nil
  | some s =>
    match jparse s with
    | some (.obj ms) => ms
    | _ => .nil

/-- `json.dump(cache, f, indent=2, ensure_ascii=False)`. -/
def saveCache (c : JObj) : String := String.mk (renderV 0 (.obj c))

def allStrings : List Json → Option (List String)
  | [] => some []
  | .str s :: t => (allStrings t).map (s :: ·)
  | _ :: _ => none

/-- Python string `<=`: code-point lexicographic order. -/
def strLeL : List Char → List Char → Bool
  | [], _ => true
  | _ :: _, [] => false
  | a :: as, b :: bs => if a < b then true else if b < a then false else strLeL as bs

def strLe (a b : String) : Bool := strLeL a.data b.data

/-- Python string `<`: strict code-point lexicographic order. -/
def strLtL : List Char → List Char → Bool
  | [], [] => false
  | [], _ :: _ => true
  | _ :: _, [] => false
  | a :: as, b :: bs => if a < b then true else if b < a then false else strLtL as bs

def strLt (a b : String) : Bool := strLtL a.data b.data

/-- `sorted(categorized_repos.keys())`: Python's `sorted` on the category
keys (code-point lexicographic order on strings).  The program's categories
are strings; comparing a non-string key raises `TypeError`, modelled as
`Except.error`. -/
def sortCatsE (ks : List Json) : Except Unit (List String) :=
  match allStrings ks with
  | some ss => .ok (ss.insertionSort (fun a b => strLe a b = true))
  | none => .error ()

/-- Python truthiness of a JSON value (`if item['description']`). -/
def truthy : Json → Bool
  | .null => false
  | .bool b => b
  | .str s => !(s = "")
  | .arr .nil => false
  | .arr _ => true
  | .obj .nil => false
  | .obj _ => true

mutual
/-- Python `str()` of a JSON value (only the string case is exercised by the
script's data; the others model `str` on the corresponding Python values,
with `repr` — which differs from `str` only on strings — used for elements
nested inside lists and dictionaries, as Python does). -/
def pyToStr : Json → String
  | .null => "None"
  | .bool true => "True"
  | .bool false => "False"
  | .str s => s
  | .arr es => "[" ++ pyReprA es ++ "]"
  | .obj ms => "\x7b" ++ pyReprM ms ++ "\x7d"

def pyReprA : JArr → String
  | .nil => ""
  | .cons (.str s) .nil => "'" ++ s ++ "'"
  | .cons x .nil => pyToStr x
  | .cons (.str s) tl => "'" ++ s ++ "'" ++ ", " ++ pyReprA tl
  | .cons x tl => pyToStr x ++ ", " ++ pyReprA tl

def pyReprM : JObj → String
  | .nil => ""
  | .cons k (.str s) .nil => "'" ++ k ++ "': " ++ ("'" ++ s ++ "'")
  | .cons k v .nil => "'" ++ k ++ "': " ++ pyToStr v
  | .cons k (.str s) tl => "'" ++ k ++ "': " ++ ("'" ++ s ++ "'") ++ ", " ++ pyReprM tl
  | .cons k v tl => "'" ++ k ++ "': " ++ pyToStr v ++ ", " ++ pyReprM tl
end

/-- One table row (line 207). -/
def renderRow (it : Item) : String :=
  "| [" ++ it.name ++ "](" ++ it.url ++ ") | "
    ++ (if truthy it.descr then pyToStr it.descr else "-") ++ " |\n"

/-- One category section (lines 201-208). -/
def renderSection (s : String × List Item) : String :=
  "## " ++ s.1 ++ "\n\n| Repository | Description |\n| ---------- | ----------- |\n"
    ++ String.join (s.2.map renderRow) ++ "\n"

/-- The full Markdown document (lines 195-208). -/
def renderDoc (time : String) (sections : List (String × List Item)) : String :=
  "# My Mirrored Repositories\n\nAutomatically mirrored from Gitcode and other sources. Last updated: "
    ++ time ++ "\n\n" ++ String.join (sections.map renderSection)

/-- The observable outcome of one run: what was written where, plus the
effect trace (README fetches, enrichment-client invocations, total POSTs). -/
structure MainResult where
  cacheWrite : Option String
  readmeWrite : Option String
  sections : List (String × List Item)
  rows : List (Json × Item)
  fetches : List String
  invocations : List String
  llmCalls : Nat
deriving DecidableEq

def noEffects : MainResult := ⟨none, none, [], [], [], [], 0⟩

/-- `main()`.  Inputs: the environment (username, LLM key), the cache file's
content (`none` = file absent), the repository listing as returned by the
hosting API, and the per-repository enrichment oracle.  The README fetches
and network calls are recorded as effects; a raised exception is
`Except.error`. -/
def mainRun (username apiKey : Option String) (dataFile : Option String)
    (repos : List Repo) (att : String → Nat → Attempt) (time : String) :
    Except Unit MainResult :=
  match username with
  | none => .ok noEffects
  | some _ =>
    match repos with
    | [] => .ok noEffects
    | _ :: _ => do
      let init : LoopState := ⟨loadCache dataFile, [], false, [], [], [], 0⟩
      let st ← repos.foldlM (processRepo apiKey att time) init
      let cats ← sortCatsE (st.categorized.map (·.1))
      let sections := cats.map (fun c => (c, lkpD st.categorized (.str c)))
      .ok ⟨if st.updated then some (saveCache st.cache) else none,
           some (renderDoc time sections), sections, st.rows,
           st.fetches, st.invocations, st.llmCalls⟩

/-! ### Retry accounting helpers -/

/-- An attempt outcome that makes the loop sleep and retry: a non-success
HTTP status, or a `requests` timeout. -/
def isRetry : Attempt → Bool
  | .httpErr => true
  | .timeout => true
  | _ => false

/-- Number of retryable outcomes among `att i, att (i+1), ..., att (i+k-1)`. -/
def retryCount (att : Nat → Attempt) : Nat → Nat → Nat
  | _, 0 => 0
  | i, k + 1 => (if isRetry (att i) then 1 else 0) + retryCount att (i + 1) k

/-- The rendering invariant tying the `categorized_repos` dictionary to the
sequence of rows produced so far. -/
def catOk (m : List (Json × List Item)) (rows : List (Json × Item)) : Prop :=
  (m.map Prod.fst).Nodup
  ∧ (∀ c, lkpD m c = (rows.filter (fun p => decide (p.1 = c))).map Prod.snd)
  ∧ (∀ p ∈ rows, p.1 ∈ m.map Prod.fst)

mutual
/-- Fuel sufficient for `parseVal` to consume a rendered value. -/
def needV : Json → Nat
  | .null => 1
  | .bool _ => 1
  | .str _ => 1
  | .arr es => 1 + needE es
  | .obj ms => 1 + needM ms

def needE : JArr → Nat
  | .nil => 0
  | .cons x tl => 1 + needV x + needE tl

def needM : JObj → Nat
  | .nil => 0
  | .cons _ v tl => 1 + needV v + needM tl
end

deriving instance DecidableEq for Except

theorem llmLoop_calls_le (att : Nat → Attempt) : ∀ k i, (llmLoop att i k).2.1 ≤ k := by
  intro k
  induction k with
  | zero => intro i; simp [llmLoop]
  | succ k ih =>
    intro i
    cases h : att i <;> simp only [llmLoop, h]
    · cases hp : parseLlmContent _ <;> simp
    · have := ih (i + 1)
      cases hl : llmLoop att (i + 1) k with
      | mk r p =>
        cases p with
        | mk n s => simp [hl] at this ⊢; omega
    · have := ih (i + 1)
      cases hl : llmLoop att (i + 1) k with
      | mk r p =>
        cases p with
        | mk n s => simp [hl] at this ⊢; omega
    · simp

theorem llmLoop_sleeps_eq (att : Nat → Attempt) :
    ∀ k i, (llmLoop att i k).2.2 = retryCount att i (llmLoop att i k).2.1 := by
  intro k
  induction k with
  | zero => intro i; simp [llmLoop, retryCount]
  | succ k ih =>
    intro i
    cases h : att i <;> simp only [llmLoop, h]
    · cases hp : parseLlmContent _ <;> simp [retryCount, h, isRetry]
    · have := ih (i + 1)
      cases hl : llmLoop att (i + 1) k with
      | mk r p =>
        cases p with
        | mk n s =>
          simp only [hl] at this
          simp [retryCount, h, isRetry, this]
          omega
    · have := ih (i + 1)
      cases hl : llmLoop att (i + 1) k with
      | mk r p =>
        cases p with
        | mk n s =>
          simp only [hl] at this
          simp [retryCount, h, isRetry, this]
          omega
    · simp [retryCount, h, isRetry]

theorem llmLoop_exhaust (att : Nat → Attempt) :
    ∀ k i, (∀ j, j < k → isRetry (att (i + j)) = true) → llmLoop att i k = (none, k, k) := by
  intro k
  induction k with
  | zero => intro i _; simp [llmLoop]
  | succ k ih =>
    intro i h
    have h0 : isRetry (att i) = true := by have := h 0 (by omega); simpa using this
    have htl : llmLoop att (i + 1) k = (none, k, k) := by
      apply ih
      intro j hj
      have := h (j + 1) (by omega)
      simpa [Nat.add_assoc, Nat.add_comm 1 j] using this
    cases hatt : att i <;> simp [isRetry, hatt] at h0 <;> simp [llmLoop, hatt, htl]

theorem llmLoop_fail_none (att : Nat → Attempt) :
    ∀ m k i, (∀ j, j < m → isRetry (att (i + j)) = true) → m < k →
      ((∃ c, att (i + m) = .success c ∧ parseLlmContent c = none) ∨ att (i + m) = .raise) →
      (llmLoop att i k).1 = none := by
  intro m
  induction m with
  | zero =>
    intro k i _ hk hatt
    cases k with
    | zero => omega
    | succ k =>
      rcases hatt with ⟨c, hc, hp⟩ | hr
      · rw [Nat.add_zero] at hc; simp [llmLoop, hc, hp]
      · rw [Nat.add_zero] at hr; simp [llmLoop, hr]
  | succ m ih =>
    intro k i hpre hk hatt
    cases k with
    | zero => omega
    | succ k =>
      have h0 : isRetry (att i) = true := by have := hpre 0 (by omega); simpa using this
      have htl : (llmLoop att (i + 1) k).1 = none := by
        apply ih k (i + 1)
        · intro j hj
          have := hpre (j + 1) (by omega)
          simpa [Nat.add_assoc, Nat.add_comm 1 j] using this
        · omega
        · have : i + 1 + m = i + (m + 1) := by omega
          rw [this]; exact hatt
      cases hatt0 : att i <;> simp [isRetry, hatt0] at h0 <;>
        simp [llmLoop, hatt0] <;>
        (cases hl : llmLoop att (i + 1) k with
         | mk r p => simp [hl] at htl; simp [htl])

/-- C4: when no LLM credential is configured, the enrichment client returns
the default EnrichmentResult `{category: "Unclassified", enhanced_description:
original description or ""}` for every repository immediately, attempting zero
network calls (and zero sleeps). -/
theorem c4_no_credential_default (att : Nat → Attempt) (desc : Option String) :
    get_llm_description none att desc = ⟨defaultLlm desc, 0, 0⟩ := rfl

/-- C9: when the repository listing is empty, the run terminates right after
listing with no cache-file write and no README write (no effects at all). -/
theorem c9_empty_listing (username apiKey dataFile : Option String)
    (att : String → Nat → Attempt) (time : String) :
    mainRun username apiKey dataFile [] att time = .ok noEffects
    ∧ noEffects.cacheWrite = none ∧ noEffects.readmeWrite = none := by
  refine ⟨?_, rfl, rfl⟩
  cases username <;> rfl

/-- C8: the README fetcher returns the decoded text truncated to at most 2000
characters, and the empty string when the README is absent, the request fails,
or decoding fails; an exception inside its `try` block never propagates — the
function still returns a string (the empty one). -/
theorem c8_readme_fetcher (r : ReadmeResp) :
    ((∃ s, r = .ok true (some s) ∧ get_readme_content r = pyTake 2000 s)
      ∨ get_readme_content r = "")
    ∧ (get_readme_content r).length ≤ 2000
    ∧ (readmeTry r = .error () → get_readme_content r = "") := by
  have hlen : ∀ s : String, (pyTake 2000 s).length ≤ 2000 := by
    intro s
    show (s.data.take 2000).length ≤ 2000
    exact List.length_take_le 2000 s.data
  cases r with
  | ok hc dec =>
    cases hc <;> cases dec <;>
      simp [get_readme_content, readmeTry, hlen]
  | errStatus => simp [get_readme_content, readmeTry]
  | raise => simp [get_readme_content, readmeTry]

theorem c8_witness :
    readmeTry .raise = .error () ∧ get_readme_content .raise = "" :=
  ⟨rfl, (c8_readme_fetcher .raise).2.2 rfl⟩

/-- C3: the enrichment client makes at most 3 chat-completion attempts; every
non-success outcome (HTTP error status or timeout) among the attempts made is
followed by one fixed-interval wait; and on exhausting all attempts, or on any
exception — a JSON parse failure of the response content included — it returns
the default EnrichmentResult (category "Unclassified", description passed
through verbatim, `""` when absent). -/
theorem c3_retry_and_default (key : String) (att : Nat → Attempt) (desc : Option String) :
    (get_llm_description (some key) att desc).calls ≤ 3
    ∧ (get_llm_description (some key) att desc).sleeps
        = retryCount att 0 (get_llm_description (some key) att desc).calls
    ∧ ((∀ i, i < 3 → isRetry (att i) = true) →
        get_llm_description (some key) att desc = ⟨defaultLlm desc, 3, 3⟩)
    ∧ (∀ i, i < 3 → (∀ j, j < i → isRetry (att j) = true) →
        ((∃ c, att i = .success c ∧ parseLlmContent c = none) ∨ att i = .raise) →
        (get_llm_description (some key) att desc).result = defaultLlm desc) := by
  have hcalls := llmLoop_calls_le att 3 0
  have hsleeps := llmLoop_sleeps_eq att 3 0
  refine ⟨?_, ?_, ?_, ?_⟩
  · cases hl : llmLoop att 0 3 with
    | mk r p =>
      cases p with
      | mk n s =>
        rw [hl] at hcalls
        cases r <;> simp [get_llm_description, hl] <;> simpa using hcalls
  · cases hl : llmLoop att 0 3 with
    | mk r p =>
      cases p with
      | mk n s =>
        rw [hl] at hsleeps
        cases r <;> simp [get_llm_description, hl] <;> simpa using hsleeps
  · intro h
    have hx : llmLoop att 0 3 = (none, 3, 3) :=
      llmLoop_exhaust att 3 0 (by intro j hj; simpa using h j hj)
    simp [get_llm_description, hx]
  · intro i hi hpre hatt
    have hx : (llmLoop att 0 3).1 = none := by
      apply llmLoop_fail_none att i 3 0
      · intro j hj; simpa using hpre j hj
      · exact hi
      · simpa using hatt
    cases hl : llmLoop att 0 3 with
    | mk r p =>
      cases p with
      | mk n s =>
        rw [hl] at hx
        simp at hx
        simp [get_llm_description, hl, hx]

theorem c3_witness :
    (get_llm_description (some "k") (fun _ => .httpErr) (some "d")).calls ≤ 3
    ∧ get_llm_description (some "k") (fun _ => .httpErr) (some "d")
        = ⟨defaultLlm (some "d"), 3, 3⟩ :=
  ⟨(c3_retry_and_default "k" (fun _ => .httpErr) (some "d")).1,
   (c3_retry_and_default "k" (fun _ => .httpErr) (some "d")).2.2.1 (fun _ _ => rfl)⟩

/-- C1: on a cache hit — the repository's name is a cache key and the stored
`description` equals the current upstream description — the orchestrator reuses
the cached enrichment payload verbatim and records no README fetch and no
enrichment-client invocation (so no enrichment network call), leaving the
cache unchanged; a missing entry or a differing stored description forces a
README fetch and a fresh enrichment, and overwrites the cache entry. -/
theorem c1_cache_reuse_and_invalidation (apiKey : Option String)
    (att : String → Nat → Attempt) (time : String) (st : LoopState) (r : Repo) :
    (∀ kvs ldkv, jlookup st.cache r.name = some (.obj kvs) →
       jGetD kvs "description" .null = pyOptStr r.description →
       jlookup kvs "llm_data" = some (.obj ldkv) →
       ∃ st', processRepo apiKey att time st r = .ok st'
         ∧ st'.cache = st.cache
         ∧ st'.fetches = st.fetches
         ∧ st'.invocations = st.invocations
         ∧ st'.llmCalls = st.llmCalls
         ∧ st'.rows = st.rows ++ [(jGetD ldkv "category" (.str "Unclassified"),
             ⟨r.name, r.html_url, jGetD ldkv "enhanced_description" (pyOptStr r.description)⟩)])
    ∧ ((jlookup st.cache r.name = none ∨
        (∃ kvs, jlookup st.cache r.name = some (.obj kvs) ∧
           jGetD kvs "description" .null ≠ pyOptStr r.description)) →
       ∀ ldkv, (get_llm_description apiKey (att r.name) r.description).result = .obj ldkv →
       ∃ st', processRepo apiKey att time st r = .ok st'
         ∧ st'.cache = jset st.cache r.name (.obj (.cons "description" (pyOptStr r.description)
             (.cons "llm_data" (.obj ldkv) (.cons "last_updated" (.str time) .nil))))
         ∧ st'.fetches = st.fetches ++ [r.name]
         ∧ st'.invocations = st.invocations ++ [r.name]
         ∧ st'.llmCalls = st.llmCalls
             + (get_llm_description apiKey (att r.name) r.description).calls) := by
  constructor
  · intro kvs ldkv h1 h2 h3
    have hpr : processRepo apiKey att time st r = addRow st (.obj ldkv) r := by
      simp [processRepo, h1, h2, h3]
    rw [hpr]
    simp only [addRow]
    exact ⟨_, rfl, rfl, rfl, rfl, rfl, rfl⟩
  · intro hmiss ldkv hld
    have hpr : processRepo apiKey att time st r = missPath apiKey att time st r := by
      rcases hmiss with h | ⟨kvs, h1, h2⟩
      · simp [processRepo, h]
      · simp [processRepo, h1, h2]
    rw [hpr]
    simp only [missPath, hld]
    simp only [addRow]
    refine ⟨_, rfl, ?_, rfl, rfl, rfl⟩
    simp [hld]

theorem c1_witness :
    (∃ st', processRepo none (fun _ _ => .raise) "T"
        ⟨.cons "a" (.obj (.cons "description" .null
          (.cons "llm_data" (.obj .nil) .nil))) .nil, [], false, [], [], [], 0⟩
        ⟨"a", none, "u"⟩ = .ok st'
      ∧ st'.cache = (⟨.cons "a" (.obj (.cons "description" .null
          (.cons "llm_data" (.obj .nil) .nil))) .nil, [], false, [], [], [], 0⟩ : LoopState).cache
      ∧ st'.fetches = ([] : List String)
      ∧ st'.invocations = ([] : List String)
      ∧ st'.llmCalls = 0
      ∧ st'.rows = [] ++ [(jGetD .nil "category" (.str "Unclassified"),
          ⟨"a", "u", jGetD .nil "enhanced_description" (pyOptStr none)⟩)])
    ∧ (∃ st', processRepo none (fun _ _ => .raise) "T"
        ⟨.cons "a" (.obj (.cons "description" .null
          (.cons "llm_data" (.obj .nil) .nil))) .nil, [], false, [], [], [], 0⟩
        ⟨"b", none, "u2"⟩ = .ok st'
      ∧ st'.cache = jset (.cons "a" (.obj (.cons "description" .null
          (.cons "llm_data" (.obj .nil) .nil))) .nil) "b"
          (.obj (.cons "description" (pyOptStr none)
            (.cons "llm_data" (.obj (.cons "category" (.str "Unclassified")
              (.cons "enhanced_description" (.str "") .nil)))
              (.cons "last_updated" (.str "T") .nil))))
      ∧ st'.fetches = [] ++ ["b"]
      ∧ st'.invocations = [] ++ ["b"]
      ∧ st'.llmCalls = 0 + (get_llm_description none ((fun _ _ => .raise) "b") none).calls) := by
  constructor
  · exact (c1_cache_reuse_and_invalidation none (fun _ _ => .raise) "T" _ _).1
      (.cons "description" .null (.cons "llm_data" (.obj .nil) .nil)) .nil
      (by decide) (by decide) (by decide)
  · exact (c1_cache_reuse_and_invalidation none (fun _ _ => .raise) "T" _ _).2
      (Or.inl (by decide))
      (.cons "category" (.str "Unclassified") (.cons "enhanced_description" (.str "") .nil))
      (by decide)

/-- C2 (amended): on load, missing keys are tolerated with defaults for the
entry's stored `description` (read with `.get`, behaving as `null`) and for
`category` / `enhanced_description` inside the enrichment payload, and a
missing `last_updated` is never read; but a cache entry whose stored
description matches the upstream description and which lacks the `llm_data`
key crashes the run with a `KeyError` (the reuse reads it with brackets). -/
theorem c2_missing_llm_data_crash (apiKey : Option String)
    (att : String → Nat → Attempt) (time : String) (st : LoopState) (r : Repo) :
    (∀ kvs, jlookup st.cache r.name = some (.obj kvs) →
       jGetD kvs "description" .null = pyOptStr r.description →
       jlookup kvs "llm_data" = none →
       processRepo apiKey att time st r = .error ())
    ∧ (∀ kvs ldkv, jlookup st.cache r.name = some (.obj kvs) →
       jGetD kvs "description" .null = pyOptStr r.description →
       jlookup kvs "llm_data" = some (.obj ldkv) →
       ∃ st', processRepo apiKey att time st r = .ok st'
         ∧ st'.rows = st.rows ++ [(jGetD ldkv "category" (.str "Unclassified"),
             ⟨r.name, r.html_url, jGetD ldkv "enhanced_description" (pyOptStr r.description)⟩)]) := by
  constructor
  · intro kvs h1 h2 h3
    simp [processRepo, h1, h2, h3]
  · intro kvs ldkv h1 h2 h3
    have hpr : processRepo apiKey att time st r = addRow st (.obj ldkv) r := by
      simp [processRepo, h1, h2, h3]
    rw [hpr]
    simp only [addRow]
    exact ⟨_, rfl, rfl⟩


/-- C2 (counterexample): a cache file whose entry for `r` stores a matching
description (`null`) but no `llm_data` payload makes the run raise a
`KeyError` — backward compatibility does not hold for this missing key. -/
theorem c2_counterexample :
    mainRun (some "user") none
      (some "\x7b\"r\": \x7b\"description\": null\x7d\x7d")
      [⟨"r", none, "https://x/r"⟩] (fun _ _ => .raise) "2026-01-01" = .error () := by
  decide

theorem c2_witness :
    (processRepo none (fun _ _ => .raise) "W"
      ⟨.cons "w" (.obj (.cons "description" .null .nil)) .nil, [], false, [], [], [], 0⟩
      ⟨"w", none, "uw"⟩ = .error ())
    ∧ (∃ st', processRepo none (fun _ _ => .raise) "W"
        ⟨.cons "w" (.obj (.cons "description" .null
          (.cons "llm_data" (.obj (.cons "x" .null .nil)) .nil))) .nil,
          [], false, [], [], [], 0⟩
        ⟨"w", none, "uw"⟩ = .ok st'
      ∧ st'.rows = [] ++ [(jGetD (.cons "x" .null .nil) "category" (.str "Unclassified"),
          ⟨"w", "uw", jGetD (.cons "x" .null .nil) "enhanced_description" (pyOptStr none)⟩)]) := by
  constructor
  · exact (c2_missing_llm_data_crash none (fun _ _ => .raise) "W" _ _).1
      (.cons "description" .null .nil) (by decide) (by decide) (by decide)
  · exact (c2_missing_llm_data_crash none (fun _ _ => .raise) "W" _ _).2
      (.cons "description" .null (.cons "llm_data" (.obj (.cons "x" .null .nil)) .nil))
      (.cons "x" .null .nil) (by decide) (by decide) (by decide)

/-! ### Categorization invariants -/

theorem lkp_eq_none_iff : ∀ (m : List (Json × List Item)) (c : Json),
    lkp m c = none ↔ c ∉ m.map Prod.fst
  | [], c => by simp [lkp]
  | p :: t, c => by
    rcases eq_or_ne p.1 c with h | h
    · simp [lkp, h]
    · simp [lkp, h, lkp_eq_none_iff t c, Ne.symm h]

theorem lkp_append_none {m : List (Json × List Item)} {c : Json}
    (h : lkp m c = none) (m₂ : List (Json × List Item)) :
    lkp (m ++ m₂) c = lkp m₂ c := by
  induction m with
  | nil => simp
  | cons p t ih =>
    by_cases hp : p.1 = c
    · simp [lkp, hp] at h
    · rw [lkp, if_neg hp] at h
      rw [List.cons_append, lkp, if_neg hp]
      exact ih h

theorem lkp_append_some {m : List (Json × List Item)} {c : Json} {v : List Item}
    (h : lkp m c = some v) (m₂ : List (Json × List Item)) :
    lkp (m ++ m₂) c = some v := by
  induction m with
  | nil => simp [lkp] at h
  | cons p t ih =>
    by_cases hp : p.1 = c
    · rw [lkp, if_pos hp] at h
      rw [List.cons_append, lkp, if_pos hp]
      exact h
    · rw [lkp, if_neg hp] at h
      rw [List.cons_append, lkp, if_neg hp]
      exact ih h

theorem lkp_mapupd_self (c : Json) (it : Item) :
    ∀ m : List (Json × List Item), (lkp m c).isSome →
      lkp (m.map (fun p => if p.1 = c then (p.1, p.2 ++ [it]) else p)) c
        = some (lkpD m c ++ [it])
  | [], h => by simp [lkp] at h
  | p :: t, h => by
    by_cases hp : p.1 = c
    · simp [lkp, hp, lkpD]
    · have ht : (lkp t c).isSome := by simpa [lkp, hp] using h
      have := lkp_mapupd_self c it t ht
      simp only [List.map_cons, if_neg hp, lkp, lkpD] at this ⊢
      simp [hp, this, lkpD]

theorem lkp_mapupd_other (c c' : Json) (it : Item) (hne : c' ≠ c) :
    ∀ m : List (Json × List Item),
      lkp (m.map (fun p => if p.1 = c then (p.1, p.2 ++ [it]) else p)) c' = lkp m c'
  | [] => by simp [lkp]
  | p :: t => by
    have ht := lkp_mapupd_other c c' it hne t
    have hcc' : ¬c = c' := fun e => hne e.symm
    by_cases hp : p.1 = c
    · have hp' : p.1 ≠ c' := by rw [hp]; exact fun e => hne e.symm
      simp [lkp, hp, hp', ht, hcc']
    · by_cases hq : p.1 = c'
      · simp [lkp, hp, hq, hne, ht]
      · simp [lkp, hp, hq, ht]

theorem lkp_insertCat_self (m : List (Json × List Item)) (c : Json) (it : Item) :
    lkp (insertCat m c it) c = some (lkpD m c ++ [it]) := by
  unfold insertCat
  by_cases h : (lkp m c).isSome
  · simp only [h, if_pos]
    exact lkp_mapupd_self c it m h
  · simp only [h, Bool.false_eq_true, if_neg, not_false_iff]
    have hn : lkp m c = none := Option.not_isSome_iff_eq_none.mp h
    rw [lkp_append_none hn]
    simp [lkp, lkpD, hn]

theorem lkp_insertCat_other (m : List (Json × List Item)) (c c' : Json) (it : Item)
    (hne : c' ≠ c) : lkp (insertCat m c it) c' = lkp m c' := by
  unfold insertCat
  by_cases h : (lkp m c).isSome
  · simp only [h, if_pos]
    exact lkp_mapupd_other c c' it hne m
  · simp only [h, Bool.false_eq_true, if_neg, not_false_iff]
    cases hl : lkp m c' with
    | some v => exact lkp_append_some hl _
    | none =>
      rw [lkp_append_none hl]
      have hcc' : ¬c = c' := fun e => hne e.symm
      simp [lkp, hcc']

theorem keys_insertCat (m : List (Json × List Item)) (c : Json) (it : Item) :
    (insertCat m c it).map Prod.fst
      = if (lkp m c).isSome then m.map Prod.fst else m.map Prod.fst ++ [c] := by
  unfold insertCat
  by_cases h : (lkp m c).isSome <;> simp only [h, if_pos, Bool.false_eq_true, if_neg,
    not_false_iff, List.map_append, List.map_cons, List.map_nil]
  · rw [List.map_map]
    apply List.map_congr_left
    intro p _
    by_cases hp : p.1 = c <;> simp [hp]

theorem catOk_nil : catOk [] [] := by
  refine ⟨by simp, ?_, by simp⟩
  intro c
  simp [lkpD, lkp]

theorem catOk_insert {m : List (Json × List Item)} {rows : List (Json × Item)}
    (h : catOk m rows) (c : Json) (it : Item) :
    catOk (insertCat m c it) (rows ++ [(c, it)]) := by
  obtain ⟨hnd, hbuck, hcov⟩ := h
  refine ⟨?_, ?_, ?_⟩
  · rw [keys_insertCat]
    by_cases hs : (lkp m c).isSome
    · simpa [hs] using hnd
    · have hn : lkp m c = none := Option.not_isSome_iff_eq_none.mp hs
      simp only [hs, Bool.false_eq_true, if_neg, not_false_iff]
      rw [List.nodup_append]
      exact ⟨hnd, by simp, by
        intro x hx
        simp only [List.mem_singleton]
        intro e
        subst e
        exact absurd hx ((lkp_eq_none_iff m x).mp hn)⟩
  · intro c'
    by_cases hc : c' = c
    · subst hc
      rw [lkpD, lkp_insertCat_self, Option.getD_some, hbuck c']
      simp [List.filter_append]
    · rw [lkpD, lkp_insertCat_other m c c' it hc, ← lkpD, hbuck c']
      have : decide ((c, it).1 = c') = false := by
        simp
        exact fun e => hc e.symm
      simp [List.filter_append, this]
  · intro p hp
    rw [keys_insertCat]
    rcases List.mem_append.mp hp with hold | hnew
    · have := hcov p hold
      by_cases hs : (lkp m c).isSome <;> simp [hs, this]
    · have : p = (c, it) := by simpa using hnew
      subst this
      by_cases hs : (lkp m c).isSome
      · have : (c, it).1 ∈ m.map Prod.fst := by
          rcases Option.isSome_iff_exists.mp hs with ⟨v, hv⟩
          by_contra hmem
          rw [(lkp_eq_none_iff m (c, it).1).mpr hmem] at hv
          exact Option.noConfusion hv
        simp [hs, this]
      · simp [hs]

theorem addRow_ok {st : LoopState} {ld : Json} {r : Repo} {st' : LoopState}
    (h : addRow st ld r = .ok st') :
    ∃ kv, ld = .obj kv ∧
      st' = { st with
        categorized := insertCat st.categorized (jGetD kv "category" (.str "Unclassified"))
          ⟨r.name, r.html_url, jGetD kv "enhanced_description" (pyOptStr r.description)⟩,
        rows := st.rows ++ [(jGetD kv "category" (.str "Unclassified"),
          ⟨r.name, r.html_url, jGetD kv "enhanced_description" (pyOptStr r.description)⟩)] } := by
  cases ld with
  | obj kv =>
    refine ⟨kv, rfl, ?_⟩
    simp only [addRow, Except.ok.injEq] at h
    exact h.symm
  | null => simp [addRow] at h
  | bool b => simp [addRow] at h
  | str s => simp [addRow] at h
  | arr es => simp [addRow] at h

theorem processRepo_ok_catOk {apiKey : Option String} {att : String → Nat → Attempt}
    {time : String} {st : LoopState} {r : Repo} {st' : LoopState}
    (h : processRepo apiKey att time st r = .ok st') (hinv : catOk st.categorized st.rows) :
    catOk st'.categorized st'.rows
    ∧ ∃ c it, st'.rows = st.rows ++ [(c, it)] ∧ it.name = r.name ∧ it.url = r.html_url := by
  have haddRow : ∀ (st₀ : LoopState) (ld : Json), addRow st₀ ld r = .ok st' →
      st₀.categorized = st.categorized → st₀.rows = st.rows →
      catOk st'.categorized st'.rows
      ∧ ∃ c it, st'.rows = st.rows ++ [(c, it)] ∧ it.name = r.name ∧ it.url = r.html_url := by
    intro st₀ ld har hcat hrows
    obtain ⟨kv, hld, hst'⟩ := addRow_ok har
    subst hst'
    constructor
    · show catOk (insertCat st₀.categorized _ _) (st₀.rows ++ _)
      rw [hcat, hrows]
      exact catOk_insert hinv _ _
    · refine ⟨jGetD kv "category" (.str "Unclassified"),
        ⟨r.name, r.html_url, jGetD kv "enhanced_description" (pyOptStr r.description)⟩,
        ?_, rfl, rfl⟩
      show st₀.rows ++ _ = st.rows ++ _
      rw [hrows]
  cases hcl : jlookup st.cache r.name with
  | some entry =>
    cases entry with
    | obj kvs =>
      by_cases hd : jGetD kvs "description" .null = pyOptStr r.description
      · cases hll : jlookup kvs "llm_data" with
        | some ld =>
          have hP : processRepo apiKey att time st r = addRow st ld r := by
            simp [processRepo, hcl, hd, hll]
          rw [hP] at h
          exact haddRow st ld h rfl rfl
        | none =>
          have hP : processRepo apiKey att time st r = .error () := by
            simp [processRepo, hcl, hd, hll]
          rw [hP] at h
          exact absurd h (by simp)
      · have hP : processRepo apiKey att time st r = missPath apiKey att time st r := by
          simp [processRepo, hcl, hd]
        rw [hP] at h
        simp only [missPath] at h
        exact haddRow _ _ h rfl rfl
    | null =>
      have hP : processRepo apiKey att time st r = .error () := by simp [processRepo, hcl]
      rw [hP] at h
      exact absurd h (by simp)
    | bool b =>
      have hP : processRepo apiKey att time st r = .error () := by simp [processRepo, hcl]
      rw [hP] at h
      exact absurd h (by simp)
    | str s =>
      have hP : processRepo apiKey att time st r = .error () := by simp [processRepo, hcl]
      rw [hP] at h
      exact absurd h (by simp)
    | arr es =>
      have hP : processRepo apiKey att time st r = .error () := by simp [processRepo, hcl]
      rw [hP] at h
      exact absurd h (by simp)
  | none =>
    have hP : processRepo apiKey att time st r = missPath apiKey att time st r := by
      simp [processRepo, hcl]
    rw [hP] at h
    simp only [missPath] at h
    exact haddRow _ _ h rfl rfl

theorem foldl_processRepo_spec (apiKey : Option String) (att : String → Nat → Attempt)
    (time : String) :
    ∀ (repos : List Repo) (st st' : LoopState),
      List.foldlM (processRepo apiKey att time) st repos = .ok st' →
      catOk st.categorized st.rows →
      catOk st'.categorized st'.rows
      ∧ st'.rows.map (fun p => p.2.name) = st.rows.map (fun p => p.2.name) ++ repos.map Repo.name := by
  intro repos
  induction repos with
  | nil =>
    intro st st' h hinv
    simp only [List.foldlM_nil] at h
    cases h
    simpa using hinv
  | cons r rs ih =>
    intro st st' h hinv
    rw [List.foldlM_cons] at h
    cases hp : processRepo apiKey att time st r with
    | error e => rw [hp] at h; exact absurd h (by simp [Bind.bind, Except.bind])
    | ok st1 =>
      rw [hp] at h
      have h' : List.foldlM (processRepo apiKey att time) st1 rs = .ok st' := by
        simpa [Bind.bind, Except.bind] using h
      obtain ⟨hinv1, c, it, hrows, hname, _⟩ := processRepo_ok_catOk hp hinv
      obtain ⟨hinv', hnames⟩ := ih st1 st' h' hinv1
      refine ⟨hinv', ?_⟩
      rw [hnames, hrows]
      simp [hname]

theorem allStrings_eq : ∀ {ks : List Json} {ss : List String},
    allStrings ks = some ss → ks = ss.map Json.str
  | [], ss, h => by simp [allStrings] at h; simp [← h]
  | .str s :: t, ss, h => by
    simp only [allStrings, Option.map_eq_some'] at h
    obtain ⟨ts, hts, hss⟩ := h
    subst hss
    simp [allStrings_eq hts]
  | .null :: t, ss, h => by simp [allStrings] at h
  | .bool b :: t, ss, h => by simp [allStrings] at h
  | .arr es :: t, ss, h => by simp [allStrings] at h
  | .obj ms :: t, ss, h => by simp [allStrings] at h

theorem mainRun_ok_parts {u : String} {apiKey df : Option String} {repos : List Repo}
    {att : String → Nat → Attempt} {time : String} {res : MainResult}
    (hne : repos ≠ []) (h : mainRun (some u) apiKey df repos att time = .ok res) :
    ∃ st ss,
      List.foldlM (processRepo apiKey att time)
        (⟨loadCache df, [], false, [], [], [], 0⟩ : LoopState) repos = .ok st
      ∧ allStrings (st.categorized.map Prod.fst) = some ss
      ∧ res.sections = (ss.insertionSort (fun a b => strLe a b = true)).map
          (fun c => (c, lkpD st.categorized (.str c)))
      ∧ res.rows = st.rows
      ∧ res.readmeWrite = some (renderDoc time res.sections) := by
  cases repos with
  | nil => exact absurd rfl hne
  | cons r rs =>
    rw [mainRun] at h
    have hps : (fun x : Json × List Item => x.1) = (Prod.fst : Json × List Item → Json) := rfl
    rw [hps] at h
    cases hf : List.foldlM (processRepo apiKey att time)
        (⟨loadCache df, [], false, [], [], [], 0⟩ : LoopState) (r :: rs) with
    | error e => rw [hf] at h; exact absurd h (by simp [Bind.bind, Except.bind])
    | ok st =>
      rw [hf] at h
      simp only [Bind.bind, Except.bind] at h
      cases hs : sortCatsE (st.categorized.map Prod.fst) with
      | error e => rw [hs] at h; simp at h
      | ok cats =>
        rw [hs] at h
        obtain ⟨ss, ha, hcats⟩ : ∃ ss, allStrings (st.categorized.map Prod.fst) = some ss
            ∧ cats = ss.insertionSort (fun a b => strLe a b = true) := by
          unfold sortCatsE at hs
          cases ha : allStrings (st.categorized.map Prod.fst) with
          | none => rw [ha] at hs; simp at hs
          | some ss =>
            rw [ha] at hs
            simp only [Except.ok.injEq] at hs
            exact ⟨ss, rfl, hs.symm⟩
        subst hcats
        simp only [Except.ok.injEq] at h
        refine ⟨st, ss, rfl, ha, ?_, ?_, ?_⟩ <;> rw [← h]

/-! ### Partition counting -/

theorem sum_map_add_distrib (ks : List Json) (f g : Json → Nat) :
    (ks.map (fun k => f k + g k)).sum = (ks.map f).sum + (ks.map g).sum := by
  induction ks with
  | nil => simp
  | cons k t ih => simp [ih]; omega

theorem sum_ite_zero (x : Json) : ∀ (ks : List Json), x ∉ ks →
    (ks.map (fun k => if x = k then 1 else 0)).sum = 0
  | [], _ => by simp
  | k :: t, h => by
    have hx : x ≠ k := fun e => h (by simp [e])
    have ht : x ∉ t := fun e => h (by simp [e])
    simp [hx, sum_ite_zero x t ht]

theorem sum_ite_one (x : Json) : ∀ (ks : List Json), ks.Nodup → x ∈ ks →
    (ks.map (fun k => if x = k then 1 else 0)).sum = 1
  | [], _, hx => by simp at hx
  | k :: t, hnd, hx => by
    rcases List.mem_cons.mp hx with h | h
    · subst h
      have : x ∉ t := (List.nodup_cons.mp hnd).1
      simp [sum_ite_zero x t this]
    · have hk : x ≠ k := fun e => (List.nodup_cons.mp hnd).1 (e ▸ h)
      simp [hk, sum_ite_one x t (List.nodup_cons.mp hnd).2 h]

theorem sum_filter_lengths (keys : List Json) :
    ∀ rows : List (Json × Item), keys.Nodup → (∀ p ∈ rows, p.1 ∈ keys) →
      (keys.map (fun k => (rows.filter (fun p => decide (p.1 = k))).length)).sum = rows.length
  | [], hnd, hcov => by
    simp only [List.filter_nil, List.length_nil]
    rw [List.map_const']
    simp
  | p :: rs, hnd, hcov => by
    have hcov' : ∀ q ∈ rs, q.1 ∈ keys := fun q hq => hcov q (List.mem_cons_of_mem _ hq)
    have hcongr : ∀ k ∈ keys, (List.filter (fun q => decide (q.1 = k)) (p :: rs)).length
        = (if p.1 = k then 1 else 0) + (List.filter (fun q => decide (q.1 = k)) rs).length := by
      intro k _
      by_cases h : p.1 = k
      · simp [List.filter_cons, h]
        omega
      · simp [List.filter_cons, h]
    rw [List.map_congr_left hcongr, sum_map_add_distrib,
      sum_ite_one p.1 keys hnd (hcov p (by simp)),
      sum_filter_lengths keys rs hnd hcov']
    simp [List.length_cons]
    omega

/-! ### The lexicographic order used by `sorted` -/

theorem strLeL_total : ∀ a b : List Char, strLeL a b = true ∨ strLeL b a = true
  | [], _ => Or.inl rfl
  | _ :: _, [] => Or.inr rfl
  | a :: as, b :: bs => by
    rcases lt_trichotomy a b with h | h | h
    · left; simp [strLeL, h]
    · subst h
      have := strLeL_total as bs
      simpa [strLeL, lt_irrefl] using this
    · right; simp [strLeL, h]

theorem strLeL_trans : ∀ a b c : List Char,
    strLeL a b = true → strLeL b c = true → strLeL a c = true
  | [], _, _ => by simp [strLeL]
  | _ :: _, [], _ => by simp [strLeL]
  | _ :: _, _ :: _, [] => by intro _ h; simp [strLeL] at h
  | a :: as, b :: bs, c :: cs => by
    intro hab hbc
    by_cases h1 : a < b
    · by_cases h2 : b < c
      · simp [strLeL, lt_trans h1 h2]
      · by_cases h3 : c < b
        · simp [strLeL, h2, h3] at hbc
        · have hq : b = c := le_antisymm (not_lt.mp h3) (not_lt.mp h2)
          subst hq
          simp [strLeL, h1]
    · by_cases h1' : b < a
      · simp [strLeL, h1, h1'] at hab
      · have hq : a = b := le_antisymm (not_lt.mp h1') (not_lt.mp h1)
        subst hq
        simp only [strLeL, if_neg h1, if_neg h1'] at hab
        by_cases h2 : a < c
        · simp [strLeL, h2]
        · by_cases h3 : c < a
          · simp [strLeL, h2, h3] at hbc
          · simp only [strLeL, if_neg h2, if_neg h3] at hbc ⊢
            exact strLeL_trans as bs cs hab hbc

theorem strLtL_of_le_ne : ∀ a b : List Char, strLeL a b = true → a ≠ b → strLtL a b = true
  | [], [] => by intro _ h; exact absurd rfl h
  | [], _ :: _ => by intro _ _; rfl
  | _ :: _, [] => by intro h; simp [strLeL] at h
  | a :: as, b :: bs => by
    intro hle hne
    by_cases h1 : a < b
    · simp [strLtL, h1]
    · by_cases h2 : b < a
      · simp [strLeL, h1, h2] at hle
      · have hq : a = b := le_antisymm (not_lt.mp h2) (not_lt.mp h1)
        subst hq
        simp only [strLeL, if_neg h1, if_neg h2] at hle
        simp only [strLtL, if_neg h1, if_neg h2]
        exact strLtL_of_le_ne as bs hle (fun e => hne (by rw [e]))

theorem strLe_total (a b : String) : strLe a b = true ∨ strLe b a = true :=
  strLeL_total a.data b.data

theorem strLe_trans (a b c : String) :
    strLe a b = true → strLe b c = true → strLe a c = true :=
  strLeL_trans a.data b.data c.data

theorem strLt_of_le_ne {a b : String} (h : strLe a b = true) (hne : a ≠ b) :
    strLt a b = true := by
  apply strLtL_of_le_ne a.data b.data h
  intro e
  apply hne
  cases a
  cases b
  exact congrArg String.mk e

/-- C5: in a completed run, the rendered document's category sections appear
in strictly increasing lexicographic order of category name regardless of
insertion order; each section's rows are exactly the rows assigned to that
category, in the order the repositories occurred in the API listing (the rows
sequence follows the listing order); and the document is rendered from those
sections in that order. -/
theorem c5_render_order (u : String) (apiKey df : Option String) (repos : List Repo)
    (att : String → Nat → Attempt) (time : String) (res : MainResult)
    (hne : repos ≠ []) (h : mainRun (some u) apiKey df repos att time = .ok res) :
    (res.sections.map Prod.fst).Pairwise (fun a b => strLt a b = true)
    ∧ (∀ c items, (c, items) ∈ res.sections →
        items = (res.rows.filter (fun p => decide (p.1 = Json.str c))).map Prod.snd)
    ∧ res.rows.map (fun p => p.2.name) = repos.map Repo.name
    ∧ res.readmeWrite = some (renderDoc time res.sections) := by
  obtain ⟨st, ss, hf, ha, hsec, hrows, hdoc⟩ := mainRun_ok_parts hne h
  obtain ⟨hinv, hnames⟩ := foldl_processRepo_spec apiKey att time repos _ st hf catOk_nil
  have hkeys : st.categorized.map Prod.fst = ss.map Json.str := allStrings_eq ha
  have hssnodup : ss.Nodup := by
    have := hinv.1
    rw [hkeys] at this
    exact this.of_map
  have hmapfst : res.sections.map Prod.fst = ss.insertionSort (fun a b => strLe a b = true) := by
    rw [hsec, List.map_map]
    have hid : (Prod.fst ∘ fun c : String => (c, lkpD st.categorized (Json.str c))) = id := rfl
    rw [hid, List.map_id]
  refine ⟨?_, ?_, ?_, hdoc⟩
  · rw [hmapfst]
    have hsorted : (ss.insertionSort (fun a b => strLe a b = true)).Pairwise
        (fun a b => strLe a b = true) :=
      @List.sorted_insertionSort String (fun a b => strLe a b = true) _
        ⟨strLe_total⟩ ⟨strLe_trans⟩ ss
    have hnd : (ss.insertionSort (fun a b => strLe a b = true)).Pairwise (· ≠ ·) :=
      (List.perm_insertionSort (fun a b => strLe a b = true) ss).nodup_iff.mpr hssnodup
    exact (hsorted.and hnd).imp fun hab => strLt_of_le_ne hab.1 hab.2
  · intro c items hmem
    rw [hsec] at hmem
    obtain ⟨c₀, _, heq⟩ := List.mem_map.mp hmem
    have hc : c₀ = c := congrArg Prod.fst heq
    have hitems : lkpD st.categorized (.str c₀) = items := congrArg Prod.snd heq
    subst hc
    rw [← hitems, hinv.2.1 (.str c₀), hrows]
  · rw [hrows, hnames]
    simp

theorem c5_witness :
    (mainRun (some "u5") none
      (some ("\x7b\"b\": \x7b\"description\": \"db\", \"llm_data\": \x7b\"category\": \"Z\", \"enhanced_description\": \"Eb\"\x7d\x7d, "
        ++ "\"a\": \x7b\"description\": null, \"llm_data\": \x7b\"category\": \"A\", \"enhanced_description\": \"Ea\"\x7d\x7d\x7d"))
      [⟨"b", some "db", "ub"⟩, ⟨"a", none, "ua"⟩] (fun _ _ => .raise) "T5"
      = .ok ⟨none,
          some ("# My Mirrored Repositories\n\nAutomatically mirrored from Gitcode and other sources. Last updated: T5\n\n"
            ++ "## A\n\n| Repository | Description |\n| ---------- | ----------- |\n| [a](ua) | Ea |\n\n"
            ++ "## Z\n\n| Repository | Description |\n| ---------- | ----------- |\n| [b](ub) | Eb |\n\n"),
          [("A", [⟨"a", "ua", .str "Ea"⟩]), ("Z", [⟨"b", "ub", .str "Eb"⟩])],
          [(.str "Z", ⟨"b", "ub", .str "Eb"⟩), (.str "A", ⟨"a", "ua", .str "Ea"⟩)],
          [], [], 0⟩)
    ∧ ((["A", "Z"] : List String).Pairwise (fun a b => strLt a b = true))
    ∧ ((["b", "a"] : List String) = ["b", "a"]) := by
  have h : mainRun (some "u5") none
      (some ("\x7b\"b\": \x7b\"description\": \"db\", \"llm_data\": \x7b\"category\": \"Z\", \"enhanced_description\": \"Eb\"\x7d\x7d, "
        ++ "\"a\": \x7b\"description\": null, \"llm_data\": \x7b\"category\": \"A\", \"enhanced_description\": \"Ea\"\x7d\x7d\x7d"))
      [⟨"b", some "db", "ub"⟩, ⟨"a", none, "ua"⟩] (fun _ _ => .raise) "T5"
      = .ok ⟨none,
          some ("# My Mirrored Repositories\n\nAutomatically mirrored from Gitcode and other sources. Last updated: T5\n\n"
            ++ "## A\n\n| Repository | Description |\n| ---------- | ----------- |\n| [a](ua) | Ea |\n\n"
            ++ "## Z\n\n| Repository | Description |\n| ---------- | ----------- |\n| [b](ub) | Eb |\n\n"),
          [("A", [⟨"a", "ua", .str "Ea"⟩]), ("Z", [⟨"b", "ub", .str "Eb"⟩])],
          [(.str "Z", ⟨"b", "ub", .str "Eb"⟩), (.str "A", ⟨"a", "ua", .str "Ea"⟩)],
          [], [], 0⟩ := by decide
  have hc5 := c5_render_order "u5" none _ _ _ "T5" _ (by simp) h
  refine ⟨h, ?_, rfl⟩
  simpa using hc5.1

/-- C10: in a completed run, every listed repository contributes exactly one
row, so the rows trace has one entry per listed repository and the total
number of table rows across all category sections equals the number of listed
repositories. -/
theorem c10_row_conservation (u : String) (apiKey df : Option String) (repos : List Repo)
    (att : String → Nat → Attempt) (time : String) (res : MainResult)
    (hne : repos ≠ []) (h : mainRun (some u) apiKey df repos att time = .ok res) :
    res.rows.length = repos.length
    ∧ (res.sections.map (fun s => s.2.length)).sum = repos.length := by
  obtain ⟨st, ss, hf, ha, hsec, hrows, _⟩ := mainRun_ok_parts hne h
  obtain ⟨hinv, hnames⟩ := foldl_processRepo_spec apiKey att time repos _ st hf catOk_nil
  have hkeys : st.categorized.map Prod.fst = ss.map Json.str := allStrings_eq ha
  have hstlen : st.rows.length = repos.length := by
    have := congrArg List.length hnames
    simpa using this
  refine ⟨by rw [hrows]; exact hstlen, ?_⟩
  rw [hsec, List.map_map]
  have hfun : ((fun s : String × List Item => s.2.length)
        ∘ (fun c => (c, lkpD st.categorized (.str c))))
      = fun c => (st.rows.filter (fun p => decide (p.1 = Json.str c))).length := by
    funext c
    simp [Function.comp, hinv.2.1 (.str c)]
  rw [hfun]
  have hperm := (List.perm_insertionSort (fun a b => strLe a b = true) ss).map
    (fun c => (st.rows.filter (fun p => decide (p.1 = Json.str c))).length)
  rw [hperm.sum_eq]
  have hx : (ss.map fun c => (st.rows.filter (fun p => decide (p.1 = Json.str c))).length)
      = ((st.categorized.map Prod.fst).map
          fun k => (st.rows.filter (fun p => decide (p.1 = k))).length) := by
    rw [hkeys, List.map_map]
    simp [Function.comp]
  rw [hx, sum_filter_lengths _ st.rows hinv.1 hinv.2.2]
  exact hstlen

theorem c10_witness :
    (mainRun (some "uX") none
      (some "\x7b\"w\": \x7b\"description\": \"d\", \"llm_data\": \x7b\"category\": \"K\", \"enhanced_description\": \"E\"\x7d\x7d\x7d")
      [⟨"w", some "d", "uw"⟩] (fun _ _ => .raise) "TX"
      = .ok ⟨none,
          some ("# My Mirrored Repositories\n\nAutomatically mirrored from Gitcode and other sources. Last updated: TX\n\n"
            ++ "## K\n\n| Repository | Description |\n| ---------- | ----------- |\n| [w](uw) | E |\n\n"),
          [("K", [⟨"w", "uw", .str "E"⟩])],
          [(.str "K", ⟨"w", "uw", .str "E"⟩)],
          [], [], 0⟩)
    ∧ ([(Json.str "K", (⟨"w", "uw", .str "E"⟩ : Item))] : List (Json × Item)).length = 1
    ∧ (([("K", [(⟨"w", "uw", .str "E"⟩ : Item)])] : List (String × List Item)).map
        (fun s => s.2.length)).sum = 1 := by
  have h : mainRun (some "uX") none
      (some "\x7b\"w\": \x7b\"description\": \"d\", \"llm_data\": \x7b\"category\": \"K\", \"enhanced_description\": \"E\"\x7d\x7d\x7d")
      [⟨"w", some "d", "uw"⟩] (fun _ _ => .raise) "TX"
      = .ok ⟨none,
          some ("# My Mirrored Repositories\n\nAutomatically mirrored from Gitcode and other sources. Last updated: TX\n\n"
            ++ "## K\n\n| Repository | Description |\n| ---------- | ----------- |\n| [w](uw) | E |\n\n"),
          [("K", [⟨"w", "uw", .str "E"⟩])],
          [(.str "K", ⟨"w", "uw", .str "E"⟩)],
          [], [], 0⟩ := by decide
  have hc10 := c10_row_conservation "uX" none _ _ _ "TX" _ (by simp) h
  exact ⟨h, hc10.1, hc10.2⟩

/-! ### Round trip of `json.dump` through `json.load` -/

theorem dropWs_cons_of_ws {c : Char} (h : isWsC c = true) (l : List Char) :
    dropWs (c :: l) = dropWs l := by
  simp [dropWs, List.dropWhile_cons, h]

theorem dropWs_cons_of_not {c : Char} (h : isWsC c = false) (l : List Char) :
    dropWs (c :: l) = c :: l := by
  simp [dropWs, List.dropWhile_cons, h]

theorem dropWs_append_ws : ∀ {w : List Char}, (∀ c ∈ w, isWsC c = true) →
    ∀ l, dropWs (w ++ l) = dropWs l
  | [], _, l => rfl
  | c :: w', h, l => by
    rw [List.cons_append, dropWs_cons_of_ws (h c (by simp))]
    exact dropWs_append_ws (fun d hd => h d (by simp [hd])) l

theorem jpad_ws (n : Nat) : ∀ c ∈ jpad n, isWsC c = true := by
  intro c hc
  rw [jpad, List.mem_replicate] at hc
  rw [hc.2]
  rfl

theorem hexVal_hexDig : ∀ n, n < 16 → hexVal (hexDig n) = some n := by decide

theorem parseStrAux_u (acc tail : List Char) (n : Nat) (hn : n < 32) :
    parseStrAux acc ('\\' :: 'u' :: '0' :: '0' :: hexDig (n / 16) :: hexDig (n % 16) :: tail)
      = parseStrAux (Char.ofNat n :: acc) tail := by
  have hhi : hexVal (hexDig (n / 16)) = some (n / 16) := hexVal_hexDig _ (by omega)
  have hlo : hexVal (hexDig (n % 16)) = some (n % 16) := hexVal_hexDig _ (by omega)
  have h0 : hexVal '0' = some 0 := rfl
  have harith : 16 * (n / 16) + n % 16 = n := by omega
  simp [parseStrAux, hhi, hlo, h0, harith]

theorem parseStrAux_esc : ∀ (cs acc rest : List Char),
    parseStrAux acc (escList cs ++ '"' :: rest) = some (String.mk (acc.reverse ++ cs), rest)
  | [], acc, rest => by
    simp only [escList, List.nil_append]
    rw [parseStrAux.eq_def]
    simp +decide only [reduceIte]
    simp
  | c :: cs', acc, rest => by
    have IH := parseStrAux_esc cs'
    by_cases hq : c = '"'
    · subst hq
      simp only [escList, show escChar '"' = ['\\', '"'] from rfl, List.cons_append,
        List.nil_append, List.append_assoc]
      rw [parseStrAux.eq_def]
      simp +decide only [reduceIte]
      rw [IH]
      simp
    · by_cases hbs : c = '\\'
      · subst hbs
        simp only [escList, show escChar '\\' = ['\\', '\\'] from rfl, List.cons_append,
          List.nil_append, List.append_assoc]
        rw [parseStrAux.eq_def]
        simp +decide only [reduceIte]
        rw [IH]
        simp
      · by_cases hn : c = '\n'
        · subst hn
          simp only [escList, show escChar '\n' = ['\\', 'n'] from rfl, List.cons_append,
            List.nil_append, List.append_assoc]
          rw [parseStrAux.eq_def]
          simp +decide only [reduceIte]
          rw [IH]
          simp
        · by_cases ht : c = '\t'
          · subst ht
            simp only [escList, show escChar '\t' = ['\\', 't'] from rfl, List.cons_append,
              List.nil_append, List.append_assoc]
            rw [parseStrAux.eq_def]
            simp +decide only [reduceIte]
            rw [IH]
            simp
          · by_cases hr : c = '\r'
            · subst hr
              simp only [escList, show escChar '\r' = ['\\', 'r'] from rfl, List.cons_append,
                List.nil_append, List.append_assoc]
              rw [parseStrAux.eq_def]
              simp +decide only [reduceIte]
              rw [IH]
              simp
            · by_cases hb8 : c = Char.ofNat 8
              · subst hb8
                simp only [escList, show escChar (Char.ofNat 8) = ['\\', 'b'] from rfl, List.cons_append,
                  List.nil_append, List.append_assoc]
                rw [parseStrAux.eq_def]
                simp +decide only [reduceIte]
                rw [IH]
                simp
              · by_cases hc12 : c = Char.ofNat 12
                · subst hc12
                  simp only [escList, show escChar (Char.ofNat 12) = ['\\', 'f'] from rfl, List.cons_append,
                    List.nil_append, List.append_assoc]
                  rw [parseStrAux.eq_def]
                  simp +decide only [reduceIte]
                  rw [IH]
                  simp
                · by_cases hlt : c.toNat < 32
                  · have hesc : escChar c = ['\\', 'u', '0', '0',
                        hexDig (c.toNat / 16), hexDig (c.toNat % 16)] := by
                      simp [escChar, hq, hbs, hn, ht, hr, hb8, hc12, hlt]
                    simp only [escList, hesc, List.cons_append, List.nil_append,
                      List.append_assoc]
                    rw [parseStrAux_u _ _ c.toNat hlt, Char.ofNat_toNat, IH]
                    simp
                  · have hesc : escChar c = [c] := by
                      simp [escChar, hq, hbs, hn, ht, hr, hb8, hc12, hlt]
                    simp only [escList, hesc, List.cons_append, List.nil_append,
                      List.append_assoc]
                    rw [parseStrAux.eq_def]
                    simp only []
                    rw [if_neg hq, if_neg hbs, IH]
                    simp

theorem nlpad_ws (n : Nat) : ∀ c ∈ ('\n' :: jpad n : List Char), isWsC c = true := by
  intro c hc
  rcases List.mem_cons.mp hc with h | h
  · rw [h]; rfl
  · exact jpad_ws n c h

theorem space_ws : ∀ c ∈ ([' '] : List Char), isWsC c = true := by
  intro c hc
  rw [List.mem_singleton.mp hc]
  rfl

theorem needV_pos : ∀ j : Json, 1 ≤ needV j
  | .null => le_refl 1
  | .bool _ => le_refl 1
  | .str _ => le_refl 1
  | .arr es => by simp [needV]
  | .obj ms => by simp [needV]

theorem renderV_head (ind : Nat) (j : Json) :
    ∃ hd tl0, renderV ind j = hd :: tl0 ∧ isWsC hd = false ∧
      hd ≠ ']' ∧ hd ≠ '\x7d' ∧ hd ≠ ',' := by
  cases j with
  | null => exact ⟨'n', _, rfl, by decide, by decide, by decide, by decide⟩
  | bool b =>
    cases b
    · exact ⟨'f', _, rfl, by decide, by decide, by decide, by decide⟩
    · exact ⟨'t', _, rfl, by decide, by decide, by decide, by decide⟩
  | str s => exact ⟨'"', _, rfl, by decide, by decide, by decide, by decide⟩
  | arr es =>
    cases es
    · exact ⟨'[', _, rfl, by decide, by decide, by decide, by decide⟩
    · exact ⟨'[', _, rfl, by decide, by decide, by decide, by decide⟩
  | obj ms =>
    cases ms
    · exact ⟨'\x7b', _, rfl, by decide, by decide, by decide, by decide⟩
    · exact ⟨'\x7b', _, rfl, by decide, by decide, by decide, by decide⟩

theorem mk_data (s : String) : String.mk s.data = s := rfl

mutual
theorem pvr : ∀ (j : Json) (f ind : Nat) (w rest : List Char), needV j ≤ f →
    (∀ c ∈ w, isWsC c = true) →
    parseVal f (w ++ (renderV ind j ++ rest)) = some (j, rest)
  | j, 0, _, _, _, hf, _ => absurd (le_trans (needV_pos j) hf) (by omega)
  | j, f + 1, ind, w, rest, hf, hw => by
    rw [parseVal.eq_def]
    simp only []
    rw [dropWs_append_ws hw]
    cases j with
    | null =>
      simp only [renderV, List.cons_append, List.nil_append]
      rw [dropWs_cons_of_not (by decide)]
      simp +decide only [reduceIte]
    | bool b =>
      cases b <;>
        (simp +decide only [renderV, reduceIte, List.cons_append, List.nil_append]
         rw [dropWs_cons_of_not (by decide)]
         simp +decide only [reduceIte])
    | str s =>
      simp only [renderV, renderStrLit, List.cons_append, List.append_assoc,
        List.nil_append, List.singleton_append]
      rw [dropWs_cons_of_not (by decide)]
      simp +decide only [reduceIte]
      rw [parseStrAux_esc]
      simp [mk_data]
    | arr es =>
      cases es with
      | nil =>
        simp only [renderV, List.cons_append, List.nil_append]
        rw [dropWs_cons_of_not (by decide)]
        simp +decide only [reduceIte]
        rw [dropWs_cons_of_not (by decide)]
        simp +decide only [reduceIte]
      | cons x tl =>
        simp only [renderV, List.cons_append, List.nil_append, List.append_assoc,
          List.singleton_append]
        rw [dropWs_cons_of_not (by decide)]
        simp +decide only [reduceIte]
        obtain ⟨hd, t0, hx, hws, hne1, hne2, hne3⟩ := renderV_head (ind + 1) x
        rw [show dropWs ('\n' :: (jpad (ind + 1) ++ (renderV (ind + 1) x ++ (renderE (ind + 1) tl
              ++ ('\n' :: (jpad ind ++ (']' :: rest)))))))
            = renderV (ind + 1) x ++ (renderE (ind + 1) tl
              ++ ('\n' :: (jpad ind ++ (']' :: rest)))) from by
          rw [dropWs_cons_of_ws (by decide), dropWs_append_ws (jpad_ws _)]
          rw [hx, List.cons_append, dropWs_cons_of_not hws]]
        split
        · next r' heq =>
            rw [hx, List.cons_append] at heq
            exact absurd (List.head_eq_of_cons_eq heq) hne1
        · have hP := per x tl f (ind + 1) ('\n' :: jpad (ind + 1)) ('\n' :: jpad ind) rest
            (by simp only [needV] at hf; omega) (nlpad_ws _) (nlpad_ws _)
          simp only [List.cons_append, List.append_assoc] at hP
          rw [hP]
    | obj ms =>
      cases ms with
      | nil =>
        simp only [renderV, List.cons_append, List.nil_append]
        rw [dropWs_cons_of_not (by decide)]
        simp +decide only [reduceIte]
        rw [dropWs_cons_of_not (by decide)]
        simp +decide only [reduceIte]
      | cons k v tl =>
        simp only [renderV, renderStrLit, List.cons_append, List.nil_append,
          List.append_assoc, List.singleton_append]
        rw [dropWs_cons_of_not (by decide)]
        simp +decide only [reduceIte]
        rw [show dropWs ('\n' :: (jpad (ind + 1) ++ ('"' :: (escList k.data ++ ('"' :: (':' :: (' ' :: (renderV (ind + 1) v
              ++ (renderM (ind + 1) tl ++ ('\n' :: (jpad ind ++ ('\x7d' :: rest))))))))))))
            = '"' :: (escList k.data ++ ('"' :: (':' :: (' ' :: (renderV (ind + 1) v
              ++ (renderM (ind + 1) tl ++ ('\n' :: (jpad ind ++ ('\x7d' :: rest)))))))))  from by
          rw [dropWs_cons_of_ws (by decide), dropWs_append_ws (jpad_ws _),
            dropWs_cons_of_not (by decide)]]
        split
        · next r' heq => exact absurd (List.head_eq_of_cons_eq heq) (by decide)
        · have hP := pmr k v tl f (ind + 1) ('\n' :: jpad (ind + 1)) ('\n' :: jpad ind) rest
            (by simp only [needV] at hf; omega) (nlpad_ws _) (nlpad_ws _)
          simp only [renderStrLit, List.cons_append, List.append_assoc,
            List.singleton_append] at hP
          rw [hP]

theorem per : ∀ (x : Json) (tl : JArr) (f ind : Nat) (w w' rest : List Char),
    needE (.cons x tl) ≤ f → (∀ c ∈ w, isWsC c = true) → (∀ c ∈ w', isWsC c = true) →
    parseElems f (w ++ (renderV ind x ++ (renderE ind tl ++ (w' ++ (']' :: rest)))))
      = some (.cons x tl, rest)
  | x, tl, 0, _, _, _, _, hf, _, _ => by simp only [needE] at hf; omega
  | x, tl, f + 1, ind, w, w', rest, hf, hw, hw' => by
    rw [parseElems.eq_def]
    simp only []
    rw [pvr x f ind w (renderE ind tl ++ (w' ++ (']' :: rest)))
      (by simp only [needE] at hf; omega) hw]
    cases tl with
    | nil =>
      simp only [renderE, List.nil_append]
      rw [dropWs_append_ws hw', dropWs_cons_of_not (by decide)]
      simp +decide only [reduceIte]
    | cons y tl' =>
      simp only [renderE, List.cons_append, List.append_assoc]
      rw [dropWs_cons_of_not (by decide)]
      simp +decide only [reduceIte]
      have hP := per y tl' f ind ('\n' :: jpad ind) w' rest
        (by simp only [needE] at hf ⊢; omega) (nlpad_ws _) hw'
      simp only [List.cons_append, List.append_assoc] at hP
      rw [hP]

theorem pmr : ∀ (k : String) (v : Json) (tl : JObj) (f ind : Nat) (w w' rest : List Char),
    needM (.cons k v tl) ≤ f → (∀ c ∈ w, isWsC c = true) → (∀ c ∈ w', isWsC c = true) →
    parseMembers f (w ++ ('"' :: (escList k.data ++ ('"' :: (':' :: (' ' :: (renderV ind v
        ++ (renderM ind tl ++ (w' ++ ('\x7d' :: rest))))))))))
      = some (.cons k v tl, rest)
  | k, v, tl, 0, _, _, _, _, hf, _, _ => by simp only [needM] at hf; omega
  | k, v, tl, f + 1, ind, w, w', rest, hf, hw, hw' => by
    rw [parseMembers.eq_def]
    simp only []
    rw [dropWs_append_ws hw, dropWs_cons_of_not (by decide)]
    simp +decide only [reduceIte]
    rw [parseStrAux_esc]
    simp only [List.reverse_nil, List.nil_append, mk_data]
    rw [dropWs_cons_of_not (by decide)]
    simp +decide only [reduceIte]
    have hv := pvr v f ind [' '] (renderM ind tl ++ (w' ++ ('\x7d' :: rest)))
      (by simp only [needM] at hf; omega) space_ws
    simp only [List.cons_append, List.nil_append, List.singleton_append] at hv
    rw [hv]
    cases tl with
    | nil =>
      simp only [renderM, List.nil_append]
      rw [dropWs_append_ws hw', dropWs_cons_of_not (by decide)]
      simp +decide only [reduceIte]
    | cons k2 v2 tl2 =>
      simp only [renderM, renderStrLit, List.cons_append, List.append_assoc,
        List.singleton_append]
      rw [dropWs_cons_of_not (by decide)]
      simp +decide only [reduceIte]
      have hP := pmr k2 v2 tl2 f ind ('\n' :: jpad ind) w' rest
        (by simp only [needM] at hf ⊢; omega) (nlpad_ws _) hw'
      simp only [renderStrLit, List.cons_append, List.append_assoc,
        List.singleton_append] at hP
      simp only [List.nil_append]
      rw [hP]
end

mutual
theorem needV_le : ∀ (j : Json) (ind : Nat), needV j ≤ (renderV ind j).length
  | .null, _ => by simp [needV, renderV]
  | .bool b, _ => by cases b <;> simp [needV, renderV]
  | .str s, _ => by simp [needV, renderV, renderStrLit]
  | .arr .nil, _ => by simp [needV, needE, renderV]
  | .arr (.cons x tl), ind => by
    have h1 := needV_le x (ind + 1)
    have h2 := needE_le tl (ind + 1)
    simp only [needV, needE, renderV, List.length_cons, List.length_append]
    omega
  | .obj .nil, _ => by simp [needV, needM, renderV]
  | .obj (.cons k v tl), ind => by
    have h1 := needV_le v (ind + 1)
    have h2 := needM_le tl (ind + 1)
    simp only [needV, needM, renderV, List.length_cons, List.length_append]
    omega

theorem needE_le : ∀ (es : JArr) (ind : Nat), needE es ≤ (renderE ind es).length
  | .nil, _ => by simp [needE, renderE]
  | .cons x tl, ind => by
    have h1 := needV_le x ind
    have h2 := needE_le tl ind
    simp only [needE, renderE, List.length_cons, List.length_append]
    omega

theorem needM_le : ∀ (ms : JObj) (ind : Nat), needM ms ≤ (renderM ind ms).length
  | .nil, _ => by simp [needM, renderM]
  | .cons k v tl, ind => by
    have h1 := needV_le v ind
    have h2 := needM_le tl ind
    simp only [needM, renderM, List.length_cons, List.length_append]
    omega
end

theorem rstrip_concat {b : Char} (hb : isWsC b = false) (x : List Char) :
    rstripWs (x ++ [b]) = x ++ [b] := by
  unfold rstripWs
  rw [List.reverse_append, List.reverse_singleton, List.singleton_append,
    dropWs_cons_of_not hb, List.reverse_cons, List.reverse_reverse]

theorem pyStrip_obj (c : JObj) : pyStrip (renderV 0 (.obj c)) = renderV 0 (.obj c) := by
  cases c with
  | nil => decide
  | cons k v tl =>
    have hsh : renderV 0 (.obj (.cons k v tl))
        = ('\x7b' :: ('\n' :: (jpad 1 ++ renderStrLit k ++ ':' :: ' ' :: renderV 1 v
            ++ renderM 1 tl ++ ['\n']))) ++ ['\x7d'] := by
      simp [renderV, jpad, List.append_assoc]
    rw [hsh]
    unfold pyStrip
    rw [rstrip_concat (by decide), List.cons_append, dropWs_cons_of_not (by decide)]

/-- C6: saving the cache with `json.dump(..., indent=2, ensure_ascii=False)`
and loading the file back with `json.load` reproduces the same CacheEntry
mapping — the same keys with the same values in the same order, non-ASCII and
escaped characters included. -/
theorem c6_cache_roundtrip (c : JObj) : loadCache (some (saveCache c)) = c := by
  have hlen : needV (.obj c) ≤ (renderV 0 (.obj c)).length + 1 :=
    le_trans (needV_le (.obj c) 0) (by omega)
  have hparse := pvr (.obj c) ((renderV 0 (.obj c)).length + 1) 0 [] [] hlen (by simp)
  simp only [List.nil_append, List.append_nil] at hparse
  show loadCache (some (String.mk (renderV 0 (.obj c)))) = c
  unfold loadCache jparse jparseL
  simp only [show (String.mk (renderV 0 (.obj c))).data = renderV 0 (.obj c) from rfl]
  rw [pyStrip_obj c, hparse]
  simp

/-! ### Markdown-fence stripping -/

theorem pfxB_append_self : ∀ p t : List Char, pfxB p (p ++ t) = true
  | [], _ => rfl
  | a :: as, t => by simp [pfxB, pfxB_append_self as t]

theorem pfxB_iff : ∀ p l : List Char, pfxB p l = true ↔ ∃ t, l = p ++ t
  | [], l => by simp [pfxB]
  | a :: as, [] => by simp [pfxB]
  | a :: as, b :: bs => by
    rw [pfxB]
    constructor
    · intro h
      obtain ⟨hab, ht⟩ := Bool.and_eq_true .. ▸ h
      obtain ⟨t, hts⟩ := (pfxB_iff as bs).mp ht
      exact ⟨t, by simp [hts, (show a = b by exact_mod_cast of_decide_eq_true hab).symm]⟩
    · rintro ⟨t, ht⟩
      simp only [List.cons_append, List.cons.injEq] at ht
      obtain ⟨hab, hbs⟩ := ht
      rw [hab]
      simp [(pfxB_iff as bs).mpr ⟨t, hbs⟩]

theorem occursB_iff (sep : List Char) : ∀ l : List Char,
    occursB sep l = true ↔ ∃ a b, l = a ++ (sep ++ b)
  | [] => by
    rw [occursB, pfxB_iff]
    constructor
    · rintro ⟨t, ht⟩; exact ⟨[], t, ht⟩
    · rintro ⟨a, b, hab⟩
      rcases List.append_eq_nil.mp hab.symm with ⟨ha, hb⟩
      exact ⟨b, by simp [ha, hb]⟩
  | c :: cs => by
    rw [occursB, Bool.or_eq_true, pfxB_iff, occursB_iff sep cs]
    constructor
    · rintro (⟨t, ht⟩ | ⟨a, b, hab⟩)
      · exact ⟨[], t, by simp [ht]⟩
      · exact ⟨c :: a, b, by simp [hab]⟩
    · rintro ⟨a, b, hab⟩
      cases a with
      | nil => exact Or.inl ⟨b, by simpa using hab⟩
      | cons a0 a' =>
        simp only [List.cons_append, List.cons.injEq] at hab
        exact Or.inr ⟨a', b, hab.2⟩

theorem splitAux_no_occ (sep : List Char) (hsep : sep ≠ []) :
    ∀ (l : List Char) (f : Nat) (acc : List Char),
      ¬(∃ a b, l = a ++ (sep ++ b)) → l.length < f →
      splitAux sep f acc l = [acc.reverse ++ l]
  | [], f, acc, _, hf => by
    cases f with
    | zero => omega
    | succ f' => simp [splitAux]
  | c :: cs, f, acc, hno, hf => by
    cases f with
    | zero => omega
    | succ f' =>
      rw [splitAux]
      rw [if_neg]
      · have := splitAux_no_occ sep hsep cs f' (c :: acc)
          (fun ⟨a, b, hab⟩ => hno ⟨c :: a, b, by simp [hab]⟩) (by simp at hf ⊢; omega)
        rw [this]
        simp
      · intro hcond
        obtain ⟨hp, _⟩ := Bool.and_eq_true .. ▸ hcond
        obtain ⟨t, ht⟩ := (pfxB_iff sep (c :: cs)).mp hp
        exact hno ⟨[], t, by simp [ht]⟩

theorem pfxB_refl (p : List Char) : pfxB p p = true := by
  have := pfxB_append_self p []
  simpa using this

theorem splitAux_last (sep : List Char) (hsep : sep ≠ []) :
    ∀ (a : List Char) (f : Nat) (acc : List Char),
      (∀ k, k < a.length → pfxB sep ((a ++ sep).drop k) = false) →
      (a ++ sep).length < f →
      splitAux sep f acc (a ++ sep) = [acc.reverse ++ a, []]
  | [], f, acc, _, hf => by
    cases f with
    | zero => omega
    | succ f' =>
      simp only [List.nil_append] at hf ⊢
      cases hs : sep with
      | nil => exact absurd hs hsep
      | cons c cs =>
        subst hs
        rw [splitAux]
        rw [if_pos (by simp [pfxB_refl])]
        rw [show List.drop (c :: cs).length (c :: cs) = [] from by simp]
        cases f' with
        | zero => simp at hf
        | succ f'' => simp [splitAux]
  | c :: a', f, acc, hno, hf => by
    cases f with
    | zero => omega
    | succ f' =>
      rw [List.cons_append, splitAux]
      rw [if_neg]
      · have := splitAux_last sep hsep a' f' (c :: acc)
          (fun k hk => by
            have := hno (k + 1) (by simp; omega)
            simpa using this)
          (by simp at hf ⊢; omega)
        rw [this]
        simp
      · have h0 := hno 0 (by simp)
        simp only [List.drop_zero, List.cons_append] at h0
        simp [h0]

theorem no_fence_tail : ∀ (s : List Char), occursB fence s = false →
    ∀ x y, s ++ '\n' :: fence = x ++ (fence ++ y) → y = []
  | [], _, x, y, h => by
    cases x with
    | nil => simp [fence] at h
    | cons x0 x' =>
      simp only [List.nil_append, List.cons_append, List.cons.injEq] at h
      have hl := congrArg List.length h.2
      simp [fence] at hl
      exact List.eq_nil_of_length_eq_zero (by omega)
  | c :: s', hno, x, y, h => by
    rw [occursB, Bool.or_eq_false_iff] at hno
    cases x with
    | nil =>
      simp only [List.nil_append] at h
      rw [show fence ++ y = '\x60' :: '\x60' :: '\x60' :: y from rfl] at h
      rw [List.cons_append] at h
      injection h with hc h2
      cases s' with
      | nil => simp [fence] at h2
      | cons d s2 =>
        rw [List.cons_append] at h2
        injection h2 with hd h3
        cases s2 with
        | nil => simp [fence] at h3
        | cons e s3 =>
          rw [List.cons_append] at h3
          injection h3 with he h4
          subst hc; subst hd; subst he
          have : pfxB fence ('\x60' :: '\x60' :: '\x60' :: s3) = true :=
            (pfxB_iff fence _).mpr ⟨s3, by simp [fence]⟩
          rw [this] at hno
          exact Bool.noConfusion hno.1
    | cons x0 x' =>
      rw [List.cons_append, List.cons_append] at h
      injection h with _ h2
      exact no_fence_tail s' hno.2 x' y h2

theorem no_fence_wrapped_tail (s : List Char) (hnf : occursB fence s = false) :
    ∀ x y, '\n' :: (s ++ '\n' :: fence) = x ++ (fence ++ y) → y = [] := by
  intro x y h
  cases x with
  | nil => simp [fence] at h
  | cons x0 x' =>
    rw [List.cons_append] at h
    injection h with _ h2
    exact no_fence_tail s hnf x' y h2

theorem tail_no_fenceJson (s : List Char) (hnf : occursB fence s = false) :
    ¬ ∃ a b, '\n' :: (s ++ '\n' :: fence) = a ++ (fenceJson ++ b) := by
  rintro ⟨a, b, hab⟩
  have hab' : '\n' :: (s ++ '\n' :: fence) = a ++ (fence ++ ('j' :: 's' :: 'o' :: 'n' :: b)) := by
    rw [hab]; simp [fenceJson]
  have := no_fence_wrapped_tail s hnf a _ hab'
  simp at this

theorem tail_pfx_cond (s : List Char) (hnf : occursB fence s = false) :
    ∀ k, k < ('\n' :: (s ++ ['\n'])).length →
      pfxB fence ((('\n' :: (s ++ ['\n'])) ++ fence).drop k) = false := by
  intro k hk
  by_contra hx
  rw [Bool.not_eq_false] at hx
  obtain ⟨t, ht⟩ := (pfxB_iff _ _).mp hx
  have hkL : k ≤ (('\n' :: (s ++ ['\n'])) ++ fence).length := by
    simp [fence] at hk ⊢; omega
  have hsplit : ('\n' :: (s ++ ['\n'])) ++ fence =
      (('\n' :: (s ++ ['\n'])) ++ fence).take k ++ (fence ++ t) := by
    conv_lhs => rw [← List.take_append_drop k (('\n' :: (s ++ ['\n'])) ++ fence)]
    rw [ht]
  have hassoc : ('\n' :: (s ++ ['\n'])) ++ fence = '\n' :: (s ++ '\n' :: fence) := by
    simp
  have ht0 : t = [] := no_fence_wrapped_tail s hnf _ t (by rw [← hassoc]; exact hsplit)
  have hlen := congrArg List.length hsplit
  rw [ht0] at hlen
  simp [List.length_take, fence] at hlen hk
  omega

theorem splitOnSub_pfx_no_occ (sep tail : List Char) (hsep : sep ≠ [])
    (hno : ¬ ∃ a b, tail = a ++ (sep ++ b)) :
    splitOnSub sep (sep ++ tail) = [[], tail] := by
  rw [splitOnSub]
  cases hs : sep with
  | nil => exact absurd hs hsep
  | cons c cs =>
    subst hs
    rw [List.cons_append, splitAux]
    rw [if_pos (by
      have := pfxB_append_self (c :: cs) tail
      rw [List.cons_append] at this
      simp [this])]
    rw [show List.drop (c :: cs).length (c :: (cs ++ tail)) = tail from by
      rw [← List.cons_append]; exact List.drop_left _ _]
    rw [splitAux_no_occ (c :: cs) (by simp) tail _ [] hno (by simp; omega)]
    simp

theorem dropWs_head_not : ∀ {l : List Char} {c : Char} {t : List Char},
    dropWs l = c :: t → isWsC c = false
  | [], c, t, h => by simp [dropWs] at h
  | c' :: cs, c, t, h => by
    by_cases hw : isWsC c' = true
    · rw [dropWs_cons_of_ws hw] at h
      exact dropWs_head_not h
    · rw [dropWs_cons_of_not (Bool.not_eq_true _ ▸ hw)] at h
      injection h with hc _
      rw [← hc]
      exact Bool.not_eq_true _ ▸ hw

theorem dropWs_suffix (l : List Char) : (dropWs l).IsSuffix l := by
  exact List.dropWhile_suffix _

theorem pyStrip_idem (l : List Char) : pyStrip (pyStrip l) = pyStrip l := by
  cases hd : pyStrip l with
  | nil => simp [pyStrip, rstripWs, dropWs]
  | cons c t =>
    rw [pyStrip] at hd ⊢
    have hhead : isWsC c = false := dropWs_head_not hd
    obtain ⟨pre, hpre⟩ := dropWs_suffix (rstripWs l)
    rw [hd] at hpre
    have hrev : dropWs l.reverse = (c :: t).reverse ++ pre.reverse := by
      have := congrArg List.reverse hpre
      rw [List.reverse_append] at this
      rw [rstripWs] at this
      rw [List.reverse_reverse] at this
      exact this.symm
    have hlast : rstripWs (c :: t) = c :: t := by
      rw [rstripWs]
      cases hct : (c :: t).reverse with
      | nil => simp at hct
      | cons b bs =>
        have hbw : isWsC b = false := by
          apply dropWs_head_not (l := l.reverse) (t := bs ++ pre.reverse)
          rw [hrev, hct, List.cons_append]
        rw [dropWs_cons_of_not hbw, ← hct, List.reverse_reverse]
    rw [hlast]
    exact dropWs_cons_of_not hhead _

theorem pyStrip_cons_ws {c : Char} (hc : isWsC c = true) (l : List Char) :
    pyStrip (c :: l) = pyStrip l := by
  simp only [pyStrip, rstripWs, dropWs, List.reverse_cons]
  rw [List.dropWhile_append]
  by_cases he : (List.dropWhile isWsC l.reverse).isEmpty
  · rw [if_pos he]
    rw [List.isEmpty_iff] at he
    rw [he]
    simp [List.dropWhile, hc]
  · rw [if_neg he]
    rw [List.reverse_append]
    simp only [List.reverse_cons, List.reverse_nil, List.nil_append, List.singleton_append]
    rw [List.dropWhile_cons_of_pos (by simp [hc])]

theorem pyStrip_concat_ws {c : Char} (hc : isWsC c = true) (l : List Char) :
    pyStrip (l ++ [c]) = pyStrip l := by
  simp only [pyStrip, rstripWs, dropWs, List.reverse_append, List.reverse_cons,
    List.reverse_nil, List.nil_append, List.singleton_append]
  rw [List.dropWhile_cons_of_pos (by simp [hc])]

theorem jparseL_pyStrip (l : List Char) : jparseL (pyStrip l) = jparseL l := by
  rw [jparseL, jparseL, pyStrip_idem]

theorem occursB_fence_of_fenceJson (l : List Char) (h : occursB fenceJson l = true) :
    occursB fence l = true := by
  obtain ⟨a, b, hab⟩ := (occursB_iff _ _).mp h
  exact (occursB_iff _ _).mpr ⟨a, 'j' :: 's' :: 'o' :: 'n' :: b, by rw [hab]; simp [fenceJson]⟩

/-- C7 (amended: the payload's text must not itself contain a ``` fence, see
the counterexample): for every JSON object payload with no ``` occurrence, a
message content wrapping that payload in a ```json fenced block parses to the
same result as the bare payload, namely to the payload's own parse. -/
theorem c7_fence_equivalence (s : String) (ms : JObj)
    (hobj : jparse s = some (Json.obj ms))
    (hnf : occursB fence s.data = false) :
    parseLlmContent (wrapJson s) = parseLlmContent s
    ∧ parseLlmContent s = some (Json.obj ms) := by
  have hfJb : occursB fenceJson s.data = false := by
    cases hx : occursB fenceJson s.data with
    | false => rfl
    | true => rw [occursB_fence_of_fenceJson _ hx] at hnf; exact Bool.noConfusion hnf
  have hbare : cleanContent s.data = s.data := by
    rw [cleanContent, if_neg (by simp [hfJb]), if_neg (by simp [hnf])]
  have hbare' : parseLlmContent s = jparse s := by
    rw [parseLlmContent, hbare]; rfl
  constructor
  · have hW : (wrapJson s).data = fenceJson ++ ('\n' :: (s.data ++ '\n' :: fence)) := rfl
    have hWocc : occursB fenceJson (wrapJson s).data = true := by
      rw [hW]
      exact (occursB_iff _ _).mpr ⟨[], '\n' :: (s.data ++ '\n' :: fence), by simp⟩
    have h1 : splitOnSub fenceJson (wrapJson s).data =
        [[], '\n' :: (s.data ++ '\n' :: fence)] := by
      rw [hW]
      exact splitOnSub_pfx_no_occ fenceJson _ (by simp [fenceJson, fence])
        (tail_no_fenceJson s.data hnf)
    have h2 : splitOnSub fence ('\n' :: (s.data ++ '\n' :: fence)) =
        ['\n' :: (s.data ++ ['\n']), []] := by
      have he : '\n' :: (s.data ++ '\n' :: fence) = ('\n' :: (s.data ++ ['\n'])) ++ fence := by
        simp
      rw [he, splitOnSub]
      rw [splitAux_last fence (by simp [fence]) ('\n' :: (s.data ++ ['\n'])) _ []
        (tail_pfx_cond s.data hnf) (by omega)]
      simp
    have hclean : cleanContent (wrapJson s).data = pyStrip ('\n' :: (s.data ++ ['\n'])) := by
      rw [cleanContent, if_pos hWocc, h1,
        show ([([] : List Char), '\n' :: (s.data ++ '\n' :: fence)]).getD 1 []
          = '\n' :: (s.data ++ '\n' :: fence) from rfl,
        h2,
        show (['\n' :: (s.data ++ ['\n']), ([] : List Char)]).getD 0 []
          = '\n' :: (s.data ++ ['\n']) from rfl]
    rw [parseLlmContent, hclean, pyStrip_cons_ws (by decide), pyStrip_concat_ws (by decide),
      jparseL_pyStrip, hbare']
    rfl
  · rw [hbare']; exact hobj

/-- C7 counterexample to the unamended claim: the payload
`\x7b"a": "\x60\x60\x60 null \x60\x60\x60"\x7d` is a JSON object, yet the bare
content parses to `null` (the fence stripper cuts between the payload's inner
backtick runs) while the ```json-wrapped content fails to parse at all. -/
theorem c7_counterexample :
    jparse (String.mk ['\x7b', '"', 'a', '"', ':', ' ', '"', '\x60', '\x60', '\x60', ' ',
        'n', 'u', 'l', 'l', ' ', '\x60', '\x60', '\x60', '"', '\x7d'])
      = some (Json.obj (JObj.cons "a"
          (Json.str (String.mk ['\x60', '\x60', '\x60', ' ', 'n', 'u', 'l', 'l', ' ',
            '\x60', '\x60', '\x60'])) JObj.nil))
    ∧ parseLlmContent (wrapJson (String.mk ['\x7b', '"', 'a', '"', ':', ' ', '"', '\x60',
        '\x60', '\x60', ' ', 'n', 'u', 'l', 'l', ' ', '\x60', '\x60', '\x60', '"', '\x7d']))
      ≠ parseLlmContent (String.mk ['\x7b', '"', 'a', '"', ':', ' ', '"', '\x60', '\x60',
        '\x60', ' ', 'n', 'u', 'l', 'l', ' ', '\x60', '\x60', '\x60', '"', '\x7d']) := by
  decide

theorem c7_witness :
    parseLlmContent (wrapJson (String.mk ['\x7b', '\x7d']))
        = parseLlmContent (String.mk ['\x7b', '\x7d'])
    ∧ parseLlmContent (String.mk ['\x7b', '\x7d']) = some (Json.obj JObj.nil) :=
  c7_fence_equivalence (String.mk ['\x7b', '\x7d']) JObj.nil (by decide) (by decide)
